import Mathlib

/-! # Verification of `prime_generator.cpp`

A shallow embedding of the trial-division prime generator of
`src/prime_generator.cpp` and theorems about it.

Conventions of the embedding.

* C `int` values are `Int`; `%` is `Int.tmod` and `/` is `Int.tdiv` (C truncates).
  Arithmetic is unbounded: the embedding describes runs in which no `int`
  computation overflows.
* The counter `count`, the loop index `i` and every array subscript start at a
  non-negative value and only grow, so they are `Nat`.
* The local array `int primes[p]` is a map `Nat → Int` from subscript to value.
  Its initial content is indeterminate in C and is a parameter (`primes0`).
  The declared length `p` is kept next to it and every store is recorded in
  `writes`, so that the subscripts used can be compared with `p`.
* The generators return `double` elapsed time, which is not modelled.  The
  embedded generators return the local variables as they are after the
  sentinel store.
* `#pragma omp parallel for` runs each iteration of the loop once, on some
  thread.  The only shared stores are inside `#pragma omp critical`, and the
  test of an iteration reads `primes[0 .. n_of_small_primes-1]` only, so a run is
  a sequential execution of the iterations in some order.  That order is chosen
  by the OpenMP runtime from the thread count and the schedule clause; it is the
  parameter `rt`.
-/

namespace PrimeGen

/-! ## `is_prime` -/

/-- The `for` loop of `is_prime` with `n` iterations left and loop index `i`. -/
def is_prime_loop (num : Int) (primes : Nat → Int) : Nat → Nat → Int
  | 0, _ => 1
  | n + 1, i =>
    if Int.tmod num (primes i) = 0 then 0
    else is_prime_loop num primes n (i + 1)

/-- Source function `int is_prime(int num, const int primes[], int count)`. -/
def is_prime (num : Int) (primes : Nat → Int) (count : Nat) : Int :=
  is_prime_loop num primes count 0

/-! ## The generators -/

/-- Search for the integer square root: the largest `r ≤ k` with `r * r ≤ n`. -/
def sqrt_search (n : Nat) : Nat → Nat
  | 0 => 0
  | k + 1 => if (k + 1) * (k + 1) ≤ n then k + 1 else sqrt_search n k

/-- The expression `(int)sqrt(M)`: the integer part of the square root of `M`. -/
def int_sqrt (M : Int) : Int :=
  (sqrt_search M.toNat M.toNat : Nat)

/-- The schedule clause of the `parallel for` pragma. -/
inductive Schedule where
  | static (chunk : Int)
  | dynamic (chunk : Int)
  | guided
  deriving DecidableEq, Repr

/-- The OpenMP runtime: given the thread count set by `omp_set_num_threads`, the
schedule clause and the iterations of the loop in program order, the order in
which the iterations are executed. -/
abbrev Runtime := Int → Schedule → List Int → List Int

/-- A runtime executes every iteration of the loop exactly once. -/
def Runtime.Fair (rt : Runtime) : Prop :=
  ∀ (threads : Int) (sch : Schedule) (l : List Int), (rt threads sch l).Perm l

/-- The runtime of a single worker: iterations in program order. -/
def sequential : Runtime := fun _ _ l => l

/-- A runtime that executes the iterations in reverse program order. -/
def reversed : Runtime := fun _ _ l => l.reverse

/-- The variables `primes`, `count`, `num` of a generator, and the subscripts
stored to so far (latest first). -/
structure Vars where
  primes : Nat → Int
  count : Nat
  num : Int
  writes : List Nat

/-- The assignment `primes[i] = v`. -/
def Vars.store (s : Vars) (i : Nat) (v : Int) : Vars :=
  { s with primes := fun j => if j = i then v else s.primes j, writes := i :: s.writes }

/-- The statements `primes[count] = num; count++;`. -/
def Vars.append (s : Vars) (num : Int) : Vars :=
  { s.store s.count num with count := s.count + 1 }

/-- The body of the seed loop: test `num` against the primes found so far, append it
on success, then `num += 2`. -/
def seed_step (s : Vars) : Vars :=
  let s1 := if is_prime s.num s.primes s.count ≠ 0 then s.append s.num else s
  { s1 with num := s1.num + 2 }

/-- The loop `while (num < root) { ... }`, unrolled at most `fuel` times. -/
def seed_loop (root : Int) : Nat → Vars → Vars
  | 0, s => s
  | fuel + 1, s => if s.num < root then seed_loop root fuel (seed_step s) else s

/-- The values of `num` in the loop `for (num = my_num; num <= M; num += 2)`, in
program order. -/
def loop_iterations (my_num M : Int) : List Int :=
  (List.range ((M + 2 - my_num) / 2).toNat).map (fun k : Nat => my_num + 2 * (k : Int))

/-- One iteration of the parallel loop with private `num`: the test against the
first `n_of_small_primes` entries and the critical section. -/
def parallel_iteration (n_of_small_primes : Nat) (s : Vars) (num : Int) : Vars :=
  if is_prime num s.primes n_of_small_primes ≠ 0 then s.append num else s

/-- The local variables of a generator after the sentinel store `primes[count] = 0`:
the declared array length `p`, the array, `count`, `n_of_small_primes`, `my_num`, and
the subscripts stored to (latest first); with them the argument of
`omp_set_num_threads` and the schedule clause of the pragma the loop ran under. -/
structure Trial where
  threads : Int
  schedule : Schedule
  p : Int
  primes : Nat → Int
  count : Nat
  n_of_small_primes : Nat
  my_num : Int
  writes : List Nat

/-- The state when the seed loop has exited: `primes[0] = 2; count = 1; num = 3;`
followed by `while (num < root)`.  The loop is given `root` units of fuel; `num` starts
at 3 and grows by 2, so the guard fails before the fuel is used up
(proved with the exit state below). -/
def seed_phase (primes0 : Nat → Int) (M : Int) : Vars :=
  let s : Vars := Vars.store { primes := primes0, count := 1, num := 3, writes := [] } 0 2
  let root := int_sqrt M
  seed_loop root root.toNat s

/-- The state when the parallel loop has finished (before the sentinel store). -/
def parallel_phase (rt : Runtime) (primes0 : Nat → Int) (num_threads M : Int)
    (sch : Schedule) : Vars :=
  let s := seed_phase primes0 M
  let n_of_small_primes := s.count
  let my_num := s.num
  (rt num_threads sch (loop_iterations my_num M)).foldl
    (parallel_iteration n_of_small_primes) s

/-- The body shared by `guided_generator`, `dynamic_generator` and
`static_generator`: the three functions differ in the schedule clause only. -/
def generator (rt : Runtime) (primes0 : Nat → Int) (num_threads M : Int)
    (sch : Schedule) : Trial :=
  let seeded := seed_phase primes0 M
  let s := parallel_phase rt primes0 num_threads M sch
  let s := s.store s.count 0
  { threads := num_threads
    schedule := sch
    p := Int.tdiv M 2
    primes := s.primes
    count := s.count
    n_of_small_primes := seeded.count
    my_num := seeded.num
    writes := s.writes }

/-- Source function `double guided_generator(int num_threads, int M)`. -/
def guided_generator (rt : Runtime) (primes0 : Nat → Int) (num_threads M : Int) : Trial :=
  generator rt primes0 num_threads M Schedule.guided

/-- Source function `double dynamic_generator(int num_threads, int M, int chunk)`. -/
def dynamic_generator (rt : Runtime) (primes0 : Nat → Int) (num_threads M chunk : Int) :
    Trial :=
  generator rt primes0 num_threads M (Schedule.dynamic chunk)

/-- Source function `double static_generator(int num_threads, int M, int chunk)`. -/
def static_generator (rt : Runtime) (primes0 : Nat → Int) (num_threads M chunk : Int) :
    Trial :=
  generator rt primes0 num_threads M (Schedule.static chunk)

/-- The character `schedule[0]` of a C string: the terminating NUL when the string
is empty. -/
def first_char (schedule : List Char) : Char :=
  schedule.headD (Char.ofNat 0)

/-- Source function
`double parallel_prime_generator(int num_threads, int M, int chunk, const char schedule[])`. -/
def parallel_prime_generator (rt : Runtime) (primes0 : Nat → Int)
    (num_threads M chunk : Int) (schedule : List Char) : Trial :=
  if first_char schedule = 'g' then guided_generator rt primes0 num_threads M
  else if first_char schedule = 'd' then dynamic_generator rt primes0 num_threads M chunk
  else static_generator rt primes0 num_threads M chunk

/-! ## Observations -/

/-- The entries `primes[0 .. count-1]`, in index order. -/
def entries (primes : Nat → Int) (count : Nat) : List Int :=
  (List.range count).map primes

/-- The entries `PrimeSet[0 .. DiscoveryCount-1]` of a finished trial. -/
def Trial.result (t : Trial) : List Int :=
  entries t.primes t.count

/-- An array content used where the initial content is irrelevant. -/
def zeroed : Nat → Int := fun _ => 0

/-! ## Reference notions from the specification -/

/-- Primality of a natural number decided by checking the candidate divisors below
it, so that closed instances can be evaluated. -/
instance decidable_prime (q : Nat) : Decidable q.Prime :=
  Nat.decidablePrime1 q

/-- The primes strictly below `n`, in increasing order. -/
def primes_below (n : Nat) : List Nat :=
  (List.range n).filter (fun q => q.Prime)

/-- The odd primes strictly below `n`, in increasing order. -/
def odd_primes_below (n : Nat) : List Nat :=
  (List.range n).filter (fun q => q % 2 = 1 ∧ q.Prime)

/-- The primes `q` with `q ≤ n`, in increasing order. -/
def primes_upto (n : Nat) : List Nat :=
  primes_below (n + 1)

/-! ## Candidates tested by the seed loop -/

/-- The values of `num` at which the body of `while (num < root)` runs, hence the
candidates passed to `is_prime` by the seed loop, in program order (same unrolling as
`seed_loop`). -/
def seed_candidates (root : Int) : Nat → Vars → List Int
  | 0, _ => []
  | fuel + 1, s =>
    if s.num < root then s.num :: seed_candidates root fuel (seed_step s) else []

/-- The candidates tested by the seed loop of a generator called with bound `M`. -/
def seed_tested (primes0 : Nat → Int) (M : Int) : List Int :=
  let s : Vars := Vars.store { primes := primes0, count := 1, num := 3, writes := [] } 0 2
  let root := int_sqrt M
  seed_candidates root root.toNat s

/-- The candidates tested by the parallel loop, in the order of execution: every
executed iteration calls `is_prime` on its own `num` once. -/
def parallel_tested (rt : Runtime) (primes0 : Nat → Int) (num_threads M : Int)
    (sch : Schedule) : List Int :=
  rt num_threads sch (loop_iterations (seed_phase primes0 M).num M)

end PrimeGen

namespace PrimeGen

/-! ## `is_prime`: trial division against the first `count` entries -/

lemma is_prime_loop_eq_zero_iff (num : Int) (primes : Nat → Int) (n i : Nat) :
    is_prime_loop num primes n i = 0 ↔
      ∃ j, i ≤ j ∧ j < i + n ∧ Int.tmod num (primes j) = 0 := by
  induction n generalizing i with
  | zero =>
    simp only [is_prime_loop, one_ne_zero, false_iff]
    rintro ⟨j, h1, h2, -⟩
    omega
  | succ n ih =>
    unfold is_prime_loop
    by_cases h : Int.tmod num (primes i) = 0
    · simp only [h, if_true, true_iff]
      exact ⟨i, le_refl i, by omega, h⟩
    · rw [if_neg h, ih (i + 1)]
      constructor
      · rintro ⟨j, h1, h2, h3⟩
        exact ⟨j, by omega, by omega, h3⟩
      · rintro ⟨j, h1, h2, h3⟩
        have hne : j ≠ i := fun e => h (e ▸ h3)
        exact ⟨j, by omega, by omega, h3⟩

lemma is_prime_loop_zero_or_one (num : Int) (primes : Nat → Int) (n i : Nat) :
    is_prime_loop num primes n i = 0 ∨ is_prime_loop num primes n i = 1 := by
  induction n generalizing i with
  | zero => right; rfl
  | succ n ih =>
    unfold is_prime_loop
    by_cases h : Int.tmod num (primes i) = 0
    · left; simp [h]
    · rw [if_neg h]; exact ih (i + 1)

lemma is_prime_eq_zero_iff (num : Int) (primes : Nat → Int) (count : Nat) :
    is_prime num primes count = 0 ↔ ∃ i, i < count ∧ Int.tmod num (primes i) = 0 := by
  unfold is_prime
  rw [is_prime_loop_eq_zero_iff]
  constructor
  · rintro ⟨j, -, h2, h3⟩
    exact ⟨j, by omega, h3⟩
  · rintro ⟨j, h2, h3⟩
    exact ⟨j, Nat.zero_le j, by omega, h3⟩

lemma is_prime_zero_or_one (num : Int) (primes : Nat → Int) (count : Nat) :
    is_prime num primes count = 0 ∨ is_prime num primes count = 1 :=
  is_prime_loop_zero_or_one num primes count 0

lemma is_prime_congr (num : Int) (primes primes' : Nat → Int) (count : Nat)
    (h : ∀ i, i < count → primes' i = primes i) :
    is_prime num primes' count = is_prime num primes count := by
  rcases is_prime_zero_or_one num primes count with h0 | h1
  · rw [h0, is_prime_eq_zero_iff]
    obtain ⟨i, hi, hd⟩ := (is_prime_eq_zero_iff num primes count).1 h0
    exact ⟨i, hi, by rw [h i hi]; exact hd⟩
  · rcases is_prime_zero_or_one num primes' count with h0' | h1'
    · obtain ⟨i, hi, hd⟩ := (is_prime_eq_zero_iff num primes' count).1 h0'
      have : is_prime num primes count = 0 :=
        (is_prime_eq_zero_iff num primes count).2 ⟨i, hi, by rw [← h i hi]; exact hd⟩
      rw [this] at h1
      exact absurd h1 (by decide)
    · rw [h1, h1']

/-- C7. `is_prime(num, primes, count)` on an array whose first `count` entries are
non-zero returns 0 exactly when some index `i < count` has `num % primes[i] == 0`
and returns 1 otherwise; entries at indices `>= count` do not affect the result,
and the result is 1 when `count = 0`. -/
theorem is_prime_spec (num : Int) (primes : Nat → Int) (count : Nat)
    (hnz : ∀ i, i < count → primes i ≠ 0) :
    (is_prime num primes count = 0 ↔ ∃ i, i < count ∧ Int.tmod num (primes i) = 0) ∧
    ((¬ ∃ i, i < count ∧ Int.tmod num (primes i) = 0) → is_prime num primes count = 1) ∧
    (∀ primes' : Nat → Int, (∀ i, i < count → primes' i = primes i) →
      is_prime num primes' count = is_prime num primes count) ∧
    (count = 0 → is_prime num primes count = 1) := by
  refine ⟨is_prime_eq_zero_iff num primes count, ?_, ?_, ?_⟩
  · intro hno
    rcases is_prime_zero_or_one num primes count with h0 | h1
    · exact absurd ((is_prime_eq_zero_iff num primes count).1 h0) hno
    · exact h1
  · intro primes' h
    exact is_prime_congr num primes primes' count h
  · rintro rfl
    rfl

/-! ## The integer square root -/

lemma sqrt_search_le (n k : Nat) : sqrt_search n k ≤ k := by
  induction k with
  | zero => simp [sqrt_search]
  | succ k ih =>
    unfold sqrt_search
    split_ifs
    · exact le_refl _
    · exact Nat.le_succ_of_le ih

lemma sqrt_search_sq_le (n k : Nat) : sqrt_search n k * sqrt_search n k ≤ n := by
  induction k with
  | zero => simp [sqrt_search]
  | succ k ih =>
    unfold sqrt_search
    split_ifs with h
    · exact h
    · exact ih

lemma le_sqrt_search (n k j : Nat) (hj : j ≤ k) (h : j * j ≤ n) : j ≤ sqrt_search n k := by
  induction k with
  | zero => omega
  | succ k ih =>
    unfold sqrt_search
    split_ifs with hk
    · exact hj
    · have hne : j ≠ k + 1 := fun e => hk (e ▸ h)
      exact ih (by omega)

lemma sqrt_search_eq_sqrt (n : Nat) : sqrt_search n n = Nat.sqrt n := by
  rw [Nat.eq_sqrt]
  refine ⟨sqrt_search_sq_le n n, ?_⟩
  by_contra hlt
  push_neg at hlt
  have h1 : sqrt_search n n + 1 ≤ n := by nlinarith
  have h2 := le_sqrt_search n n (sqrt_search n n + 1) h1 hlt
  omega

lemma int_sqrt_eq_sqrt (M : Int) : int_sqrt M = Int.sqrt M := by
  unfold int_sqrt Int.sqrt
  rw [sqrt_search_eq_sqrt]

/-! ## Entries of the array -/

lemma entries_length (primes : Nat → Int) (count : Nat) :
    (entries primes count).length = count := by
  simp [entries]

lemma mem_entries (primes : Nat → Int) (count : Nat) (v : Int) :
    v ∈ entries primes count ↔ ∃ i, i < count ∧ primes i = v := by
  simp [entries]

lemma entries_congr (primes primes' : Nat → Int) (count : Nat)
    (h : ∀ i, i < count → primes' i = primes i) :
    entries primes' count = entries primes count := by
  unfold entries
  apply List.map_congr_left
  intro i hi
  exact h i (List.mem_range.1 hi)

lemma entries_succ (primes : Nat → Int) (count : Nat) :
    entries primes (count + 1) = entries primes count ++ [primes count] := by
  simp [entries, List.range_succ]

lemma entries_append (s : Vars) (v : Int) :
    entries (s.append v).primes (s.append v).count = entries s.primes s.count ++ [v] := by
  show entries (fun j => if j = s.count then v else s.primes j) (s.count + 1) = _
  rw [entries_succ]
  congr 1
  · apply entries_congr
    intro i hi
    have : i ≠ s.count := by omega
    simp [this]
  · simp

lemma is_prime_ne_zero_iff (num : Int) (primes : Nat → Int) (count : Nat) :
    is_prime num primes count ≠ 0 ↔ ∀ d, d ∈ entries primes count → Int.tmod num d ≠ 0 := by
  rw [Ne, is_prime_eq_zero_iff]
  constructor
  · intro h d hd
    obtain ⟨i, hi, rfl⟩ := (mem_entries primes count d).1 hd
    exact fun e => h ⟨i, hi, e⟩
  · rintro h ⟨i, hi, e⟩
    exact h (primes i) ((mem_entries primes count _).2 ⟨i, hi, rfl⟩) e

lemma tmod_natCast_eq_zero_iff (a b : Nat) :
    Int.tmod (a : Int) (b : Int) = 0 ↔ b ∣ a := by
  rw [← Int.ofNat_tmod, Nat.dvd_iff_mod_eq_zero]
  exact Int.natCast_eq_zero

/-- The test against a list of natural divisors. -/
lemma is_prime_ne_zero_iff_nat (c : Nat) (primes : Nat → Int) (count : Nat) (l : List Nat)
    (hl : entries primes count = l.map (fun q : Nat => (q : Int))) :
    is_prime (c : Int) primes count ≠ 0 ↔ ∀ q, q ∈ l → ¬ q ∣ c := by
  rw [is_prime_ne_zero_iff, hl]
  constructor
  · intro h q hq hd
    exact h (q : Int) (List.mem_map.2 ⟨q, hq, rfl⟩) ((tmod_natCast_eq_zero_iff c q).2 hd)
  · intro h d hd e
    obtain ⟨q, hq, rfl⟩ := List.mem_map.1 hd
    exact h q hq ((tmod_natCast_eq_zero_iff c q).1 e)

/-! ## Primes below a bound -/

lemma mem_primes_below (n q : Nat) : q ∈ primes_below n ↔ q < n ∧ q.Prime := by
  simp [primes_below]

lemma primes_below_succ (n : Nat) :
    primes_below (n + 1) = primes_below n ++ (if n.Prime then [n] else []) := by
  unfold primes_below
  rw [List.range_succ, List.filter_append]
  congr 1
  by_cases h : n.Prime <;> simp [h]

lemma primes_below_add_two (n : Nat) (hodd : n % 2 = 1) (h3 : 3 ≤ n) :
    primes_below (n + 2) = primes_below n ++ (if n.Prime then [n] else []) := by
  have hnp : ¬ (n + 1).Prime := by
    intro hp
    have h2 : 2 ∣ n + 1 := by omega
    have := (Nat.prime_dvd_prime_iff_eq Nat.prime_two hp).1 h2
    omega
  rw [show n + 2 = (n + 1) + 1 from rfl, primes_below_succ (n + 1), if_neg hnp,
    List.append_nil, primes_below_succ]

lemma primes_below_sorted (n : Nat) : (primes_below n).Sorted (fun a b => a < b) :=
  (List.sorted_lt_range n).filter _

/-- Trial division of `n` by every prime below it decides the primality of `n`. -/
lemma no_prime_divisor_below_iff (n : Nat) (h2 : 2 ≤ n) :
    (∀ q, q ∈ primes_below n → ¬ q ∣ n) ↔ n.Prime := by
  constructor
  · intro h
    by_contra hnp
    have hlt : n.minFac < n := (Nat.not_prime_iff_minFac_lt h2).1 hnp
    have hpr : n.minFac.Prime := Nat.minFac_prime (by omega)
    exact h n.minFac ((mem_primes_below n _).2 ⟨hlt, hpr⟩) (Nat.minFac_dvd n)
  · intro hp q hq hd
    obtain ⟨hlt, hqp⟩ := (mem_primes_below n q).1 hq
    have := (Nat.prime_dvd_prime_iff_eq hqp hp).1 hd
    omega

/-! ## The seed loop -/

/-- The invariant of the seed loop is kept by its body: when `num` is the odd number
`n ≥ 3` and the entries are the primes below `n`, after the body `num` is `n + 2`
and the entries are the primes below `n + 2`. -/
lemma seed_step_spec (s : Vars) (n : Nat) (hnum : s.num = (n : Int)) (hodd : n % 2 = 1)
    (h3 : 3 ≤ n)
    (hent : entries s.primes s.count = (primes_below n).map (fun q : Nat => (q : Int)))
    (hw : s.writes = (List.range s.count).reverse) :
    (seed_step s).num = ((n + 2 : Nat) : Int) ∧
    entries (seed_step s).primes (seed_step s).count
      = (primes_below (n + 2)).map (fun q : Nat => (q : Int)) ∧
    (seed_step s).writes = (List.range (seed_step s).count).reverse := by
  have htest : is_prime s.num s.primes s.count ≠ 0 ↔ n.Prime := by
    rw [hnum, is_prime_ne_zero_iff_nat n s.primes s.count _ hent]
    exact no_prime_divisor_below_iff n (by omega)
  rw [primes_below_add_two n hodd h3]
  unfold seed_step
  by_cases hp : n.Prime
  · have ht := htest.2 hp
    simp only [ht, if_true, hp, ne_eq, not_false_eq_true]
    refine ⟨?_, ?_, ?_⟩
    · show s.num + 2 = _
      rw [hnum]; push_cast; ring
    · show entries (s.append s.num).primes (s.append s.num).count = _
      rw [entries_append, hent, hnum]
      simp
    · show s.count :: s.writes = (List.range (s.count + 1)).reverse
      rw [hw, List.range_succ, List.reverse_append]
      rfl
  · have ht : ¬ (is_prime s.num s.primes s.count ≠ 0) := fun h => hp (htest.1 h)
    simp only [ht, if_false, hp, List.append_nil]
    refine ⟨?_, hent, hw⟩
    show s.num + 2 = _
    rw [hnum]; push_cast; ring

/-- The seed loop started with enough fuel exits through its guard, at the first odd
number that is not below `root`, with the primes below that number as entries. -/
lemma seed_loop_spec (r : Nat) : ∀ (fuel : Nat) (s : Vars) (n : Nat),
    s.num = (n : Int) → n % 2 = 1 → 3 ≤ n →
    entries s.primes s.count = (primes_below n).map (fun q : Nat => (q : Int)) →
    s.writes = (List.range s.count).reverse →
    r ≤ n + 2 * fuel →
    ∃ n' : Nat, (seed_loop (r : Int) fuel s).num = (n' : Int) ∧ n' % 2 = 1 ∧ 3 ≤ n' ∧
      r ≤ n' ∧ (n' = n ∨ n' ≤ r + 1) ∧
      entries (seed_loop (r : Int) fuel s).primes (seed_loop (r : Int) fuel s).count
        = (primes_below n').map (fun q : Nat => (q : Int)) ∧
      (seed_loop (r : Int) fuel s).writes
        = (List.range (seed_loop (r : Int) fuel s).count).reverse := by
  intro fuel
  induction fuel with
  | zero =>
    intro s n hnum hodd h3 hent hw hfuel
    exact ⟨n, hnum, hodd, h3, by omega, Or.inl rfl, hent, hw⟩
  | succ fuel ih =>
    intro s n hnum hodd h3 hent hw hfuel
    unfold seed_loop
    by_cases hlt : s.num < (r : Int)
    · rw [if_pos hlt]
      obtain ⟨h1, h2, h3'⟩ := seed_step_spec s n hnum hodd h3 hent hw
      obtain ⟨n', e1, e2, e3, e4, e5, e6, e7⟩ :=
        ih (seed_step s) (n + 2) h1 (by omega) (by omega) h2 h3' (by omega)
      have hnr : n < r := by
        rw [hnum] at hlt
        exact_mod_cast hlt
      exact ⟨n', e1, e2, e3, e4, Or.inr (by omega), e6, e7⟩
    · rw [if_neg hlt]
      have hnr : r ≤ n := by
        rw [hnum] at hlt
        have : ¬ (n < r) := fun h => hlt (by exact_mod_cast h)
        omega
      exact ⟨n, hnum, hodd, h3, hnr, Or.inl rfl, hent, hw⟩

/-- The state at the exit of the seed loop: `num` is the first odd number `n ≥ 3`
that is not below `root`, and the entries are the primes below `n`. -/
lemma seed_phase_spec (primes0 : Nat → Int) (M : Int) :
    ∃ n : Nat, (seed_phase primes0 M).num = (n : Int) ∧ n % 2 = 1 ∧ 3 ≤ n ∧
      (int_sqrt M).toNat ≤ n ∧ (n = 3 ∨ n ≤ (int_sqrt M).toNat + 1) ∧
      entries (seed_phase primes0 M).primes (seed_phase primes0 M).count
        = (primes_below n).map (fun q : Nat => (q : Int)) ∧
      (seed_phase primes0 M).writes = (List.range (seed_phase primes0 M).count).reverse := by
  have hr : int_sqrt M = (((int_sqrt M).toNat : Nat) : Int) := by
    unfold int_sqrt
    simp
  unfold seed_phase
  simp only []
  rw [hr]
  simp only [Int.toNat_ofNat]
  have hpb : primes_below 3 = [2] := by decide
  apply seed_loop_spec (int_sqrt M).toNat (int_sqrt M).toNat _ 3 rfl (by decide) (le_refl 3)
  · rw [hpb]
    rfl
  · rfl
  · omega

lemma odd_primes_below_sorted (r : Nat) : (odd_primes_below r).Sorted (fun a b => a < b) :=
  (List.sorted_lt_range r).filter _

lemma mem_odd_primes_below (r q : Nat) :
    q ∈ odd_primes_below r ↔ q < r ∧ q % 2 = 1 ∧ q.Prime := by
  simp [odd_primes_below]

lemma two_cons_odd_primes_sorted (r : Nat) :
    (2 :: odd_primes_below r).Sorted (fun a b => a < b) := by
  refine List.sorted_cons.2 ⟨?_, odd_primes_below_sorted r⟩
  intro q hq
  obtain ⟨-, hodd, hp⟩ := (mem_odd_primes_below r q).1 hq
  have := hp.two_le
  omega

/-- The primes below the exit value of `num` are 2 and the odd primes below `root`. -/
lemma primes_below_exit (r n : Nat) (hodd : n % 2 = 1) (h3 : 3 ≤ n) (hr : r ≤ n)
    (hn : n = 3 ∨ n ≤ r + 1) : primes_below n = 2 :: odd_primes_below r := by
  apply List.eq_of_perm_of_sorted _ (primes_below_sorted n) (two_cons_odd_primes_sorted r)
  rw [List.perm_ext_iff_of_nodup (primes_below_sorted n).nodup
    (two_cons_odd_primes_sorted r).nodup]
  intro q
  rw [mem_primes_below, List.mem_cons, mem_odd_primes_below]
  constructor
  · rintro ⟨hlt, hp⟩
    rcases hp.eq_two_or_odd with h2 | ho
    · exact Or.inl h2
    · right
      refine ⟨?_, ho, hp⟩
      have := hp.two_le
      omega
  · rintro (rfl | ⟨hlt, -, hp⟩)
    · exact ⟨by omega, Nat.prime_two⟩
    · exact ⟨by omega, hp⟩

lemma int_sqrt_eq_toNat (M : Int) : int_sqrt M = (((int_sqrt M).toNat : Nat) : Int) := by
  unfold int_sqrt
  simp

/-- C6. For every bound `M ≥ 2` the seed loop `while (num < root)` exits through its
guard, and at that point `primes[0 .. count-1]` is the list made of 2 followed by all
odd primes strictly below `root = (int)sqrt(M)`, which is strictly increasing;
`n_of_small_primes`, the value of `count` there, is the length of that list. -/
theorem seed_loop_exit_entries (rt : Runtime) (primes0 : Nat → Int)
    (num_threads M chunk : Int) (_hM : 2 ≤ M) :
    ¬ ((seed_phase primes0 M).num < int_sqrt M) ∧
    entries (seed_phase primes0 M).primes (seed_phase primes0 M).count
      = (2 :: odd_primes_below (int_sqrt M).toNat).map (fun q : Nat => (q : Int)) ∧
    (entries (seed_phase primes0 M).primes (seed_phase primes0 M).count).Sorted
      (fun a b => a < b) ∧
    (static_generator rt primes0 num_threads M chunk).n_of_small_primes
      = (2 :: odd_primes_below (int_sqrt M).toNat).length := by
  obtain ⟨n, hnum, hodd, h3, hr, hn, hent, -⟩ := seed_phase_spec primes0 M
  have hlist := primes_below_exit (int_sqrt M).toNat n hodd h3 hr hn
  have hent' : entries (seed_phase primes0 M).primes (seed_phase primes0 M).count
      = (2 :: odd_primes_below (int_sqrt M).toNat).map (fun q : Nat => (q : Int)) := by
    rw [hent, hlist]
  refine ⟨?_, hent', ?_, ?_⟩
  · rw [hnum, int_sqrt_eq_toNat M]
    intro h
    have : n < (int_sqrt M).toNat := by exact_mod_cast h
    omega
  · rw [hent']
    exact List.Pairwise.map _ (fun a b hab => by exact_mod_cast hab)
      (two_cons_odd_primes_sorted _)
  · show (seed_phase primes0 M).count = _
    rw [← entries_length (seed_phase primes0 M).primes (seed_phase primes0 M).count, hent',
      List.length_map]

/-- The seed loop at `M = 30`: `root = 5`, and the entries are `[2, 3]`. -/
theorem seed_loop_exit_entries_witness :
    (2 : Int) ≤ 30 ∧
    (¬ ((seed_phase zeroed 30).num < int_sqrt 30) ∧
    entries (seed_phase zeroed 30).primes (seed_phase zeroed 30).count
      = (2 :: odd_primes_below (int_sqrt 30).toNat).map (fun q : Nat => (q : Int)) ∧
    (entries (seed_phase zeroed 30).primes (seed_phase zeroed 30).count).Sorted
      (fun a b => a < b) ∧
    (static_generator sequential zeroed 1 30 5).n_of_small_primes
      = (2 :: odd_primes_below (int_sqrt 30).toNat).length) :=
  ⟨by decide, seed_loop_exit_entries sequential zeroed 1 30 5 (by decide)⟩

/-! ## The parallel loop -/

lemma append_primes_of_lt (s : Vars) (v : Int) (i : Nat) (hi : i < s.count) :
    (s.append v).primes i = s.primes i := by
  show (if i = s.count then v else s.primes i) = s.primes i
  rw [if_neg (by omega)]

/-- Executing iterations of the parallel loop in any order appends, in that order, the
candidates that pass the test against the first `k` entries, and changes no entry
below the initial `count`. -/
lemma parallel_fold_spec (k : Nat) : ∀ (l : List Int) (s : Vars), k ≤ s.count →
    s.writes = (List.range s.count).reverse →
    entries (l.foldl (parallel_iteration k) s).primes (l.foldl (parallel_iteration k) s).count
      = entries s.primes s.count ++ l.filter (fun c => decide (is_prime c s.primes k ≠ 0)) ∧
    (∀ i, i < s.count → (l.foldl (parallel_iteration k) s).primes i = s.primes i) ∧
    s.count ≤ (l.foldl (parallel_iteration k) s).count ∧
    (l.foldl (parallel_iteration k) s).writes
      = (List.range (l.foldl (parallel_iteration k) s).count).reverse := by
  intro l
  induction l with
  | nil =>
    intro s _ hw
    exact ⟨by simp, fun _ _ => rfl, le_refl _, hw⟩
  | cons c l ih =>
    intro s hk hw
    rw [List.foldl_cons]
    by_cases ht : is_prime c s.primes k ≠ 0
    · have hstep : parallel_iteration k s c = s.append c := by
        unfold parallel_iteration
        rw [if_pos ht]
      rw [hstep]
      have hk' : k ≤ (s.append c).count := Nat.le_succ_of_le hk
      have hw' : (s.append c).writes = (List.range (s.append c).count).reverse := by
        show s.count :: s.writes = (List.range (s.count + 1)).reverse
        rw [hw, List.range_succ, List.reverse_append]
        rfl
      obtain ⟨h1, h2, h3, h4⟩ := ih (s.append c) hk' hw'
      have hfilter : l.filter (fun c' => decide (is_prime c' (s.append c).primes k ≠ 0))
          = l.filter (fun c' => decide (is_prime c' s.primes k ≠ 0)) := by
        apply List.filter_congr
        intro c' _
        rw [is_prime_congr c' s.primes (s.append c).primes k
          (fun i hi => append_primes_of_lt s c i (by omega))]
      refine ⟨?_, ?_, ?_, h4⟩
      · rw [h1, entries_append, hfilter, List.filter_cons_of_pos (by simpa using ht)]
        simp
      · intro i hi
        rw [h2 i (Nat.lt_succ_of_lt hi), append_primes_of_lt s c i hi]
      · exact Nat.le_of_succ_le h3
    · have hstep : parallel_iteration k s c = s := by
        unfold parallel_iteration
        rw [if_neg ht]
      rw [hstep]
      obtain ⟨h1, h2, h3, h4⟩ := ih s hk hw
      refine ⟨?_, h2, h3, h4⟩
      rw [h1, List.filter_cons_of_neg (by simpa using ht)]

lemma mem_loop_iterations (n : Nat) (M : Int) (v : Int) :
    v ∈ loop_iterations (n : Int) M ↔
      ∃ c : Nat, v = (c : Int) ∧ n ≤ c ∧ c % 2 = n % 2 ∧ (c : Int) ≤ M := by
  unfold loop_iterations
  rw [List.mem_map]
  constructor
  · rintro ⟨j, hj, rfl⟩
    have hj' : (j : Int) < (M + 2 - (n : Int)) / 2 := by
      have := List.mem_range.1 hj
      omega
    refine ⟨n + 2 * j, by push_cast; ring, by omega, by omega, ?_⟩
    push_cast
    omega
  · rintro ⟨c, rfl, hnc, hpar, hcM⟩
    refine ⟨(c - n) / 2, ?_, ?_⟩
    · rw [List.mem_range]
      omega
    · omega

lemma loop_iterations_nodup (my_num M : Int) : (loop_iterations my_num M).Nodup := by
  unfold loop_iterations
  apply List.Nodup.map _ (List.nodup_range _)
  intro a b hab
  simp only at hab
  omega

/-! ## The generators -/

/-- The entries of a finished trial: the seed entries followed by the candidates that
pass the test against the seed entries, in the order of execution. -/
lemma generator_result (rt : Runtime) (primes0 : Nat → Int) (num_threads M : Int)
    (sch : Schedule) :
    (generator rt primes0 num_threads M sch).result
      = entries (seed_phase primes0 M).primes (seed_phase primes0 M).count ++
        (rt num_threads sch (loop_iterations (seed_phase primes0 M).num M)).filter
          (fun c => decide
            (is_prime c (seed_phase primes0 M).primes (seed_phase primes0 M).count ≠ 0)) := by
  obtain ⟨n, -, -, -, -, -, -, hw⟩ := seed_phase_spec primes0 M
  obtain ⟨h1, -, -, -⟩ := parallel_fold_spec (seed_phase primes0 M).count
    (rt num_threads sch (loop_iterations (seed_phase primes0 M).num M))
    (seed_phase primes0 M) (le_refl _) hw
  rw [← h1]
  show entries (fun j => if j = (parallel_phase rt primes0 num_threads M sch).count then 0
      else (parallel_phase rt primes0 num_threads M sch).primes j)
    (parallel_phase rt primes0 num_threads M sch).count = _
  apply entries_congr
  intro i hi
  rw [if_neg (by omega)]
  rfl

lemma generator_count (rt : Runtime) (primes0 : Nat → Int) (num_threads M : Int)
    (sch : Schedule) :
    (generator rt primes0 num_threads M sch).count
      = (generator rt primes0 num_threads M sch).result.length := by
  unfold Trial.result
  rw [entries_length]

/-- The entries of a finished trial under a fair runtime, up to order. -/
lemma generator_result_perm (rt : Runtime) (hrt : rt.Fair) (primes0 : Nat → Int)
    (num_threads M : Int) (sch : Schedule) :
    ∃ n : Nat, n % 2 = 1 ∧ 3 ≤ n ∧ (int_sqrt M).toNat ≤ n ∧
      (n = 3 ∨ n ≤ (int_sqrt M).toNat + 1) ∧
      (generator rt primes0 num_threads M sch).result.Perm
        ((primes_below n).map (fun q : Nat => (q : Int)) ++
          (loop_iterations (n : Int) M).filter
            (fun c => decide (∀ q, q ∈ primes_below n → Int.tmod c (q : Int) ≠ 0))) := by
  obtain ⟨n, hnum, hodd, h3, hr, hn, hent, -⟩ := seed_phase_spec primes0 M
  refine ⟨n, hodd, h3, hr, hn, ?_⟩
  rw [generator_result, hent, hnum]
  apply List.Perm.append_left
  have hfilter : ∀ l : List Int,
      l.filter (fun c => decide
          (is_prime c (seed_phase primes0 M).primes (seed_phase primes0 M).count ≠ 0))
        = l.filter (fun c => decide (∀ q, q ∈ primes_below n → Int.tmod c (q : Int) ≠ 0)) := by
    intro l
    apply List.filter_congr
    intro c _
    congr 1
    rw [is_prime_ne_zero_iff, hent]
    simp
  rw [hfilter]
  exact (hrt num_threads sch _).filter _

/-- The values stored by a trial under a fair runtime: no value is stored twice; the
values below the first parallel candidate `n` are the primes below `n`, and the other
values are the odd numbers from `n` through `M` that no prime below `n` divides. -/
lemma generator_spec (rt : Runtime) (hrt : rt.Fair) (primes0 : Nat → Int)
    (num_threads M : Int) (sch : Schedule) :
    ∃ n : Nat, n % 2 = 1 ∧ 3 ≤ n ∧ (int_sqrt M).toNat ≤ n ∧
      (n = 3 ∨ n ≤ (int_sqrt M).toNat + 1) ∧
      (generator rt primes0 num_threads M sch).result.Nodup ∧
      ∀ v : Int, v ∈ (generator rt primes0 num_threads M sch).result ↔
        ∃ c : Nat, v = (c : Int) ∧
          ((c < n ∧ c.Prime) ∨
            (n ≤ c ∧ c % 2 = 1 ∧ (c : Int) ≤ M ∧ ∀ q, q ∈ primes_below n → ¬ q ∣ c)) := by
  obtain ⟨n, hodd, h3, hr, hn, hperm⟩ := generator_result_perm rt hrt primes0 num_threads M sch
  have hmemA : ∀ v : Int, v ∈ (primes_below n).map (fun q : Nat => (q : Int)) ↔
      ∃ c : Nat, v = (c : Int) ∧ c < n ∧ c.Prime := by
    intro v
    rw [List.mem_map]
    constructor
    · rintro ⟨c, hc, rfl⟩
      exact ⟨c, rfl, (mem_primes_below n c).1 hc⟩
    · rintro ⟨c, rfl, hc⟩
      exact ⟨c, (mem_primes_below n c).2 hc, rfl⟩
  have hmemB : ∀ v : Int, v ∈ (loop_iterations (n : Int) M).filter
        (fun c => decide (∀ q, q ∈ primes_below n → Int.tmod c (q : Int) ≠ 0)) ↔
      ∃ c : Nat, v = (c : Int) ∧ n ≤ c ∧ c % 2 = 1 ∧ (c : Int) ≤ M ∧
        ∀ q, q ∈ primes_below n → ¬ q ∣ c := by
    intro v
    rw [List.mem_filter, mem_loop_iterations, decide_eq_true_iff]
    constructor
    · rintro ⟨⟨c, rfl, h1, h2, h3⟩, h4⟩
      refine ⟨c, rfl, h1, by omega, h3, ?_⟩
      intro q hq hd
      exact h4 q hq ((tmod_natCast_eq_zero_iff c q).2 hd)
    · rintro ⟨c, rfl, h1, h2, h3, h4⟩
      refine ⟨⟨c, rfl, h1, by omega, h3⟩, ?_⟩
      intro q hq e
      exact h4 q hq ((tmod_natCast_eq_zero_iff c q).1 e)
  refine ⟨n, hodd, h3, hr, hn, ?_, ?_⟩
  · rw [hperm.nodup_iff]
    apply List.Nodup.append
    · exact List.Nodup.map (fun a b hab => by exact_mod_cast hab) (primes_below_sorted n).nodup
    · exact (loop_iterations_nodup _ M).filter _
    · intro v hA hB
      obtain ⟨c, rfl, hc, -⟩ := (hmemA v).1 hA
      obtain ⟨c', hcc, hc', -⟩ := (hmemB _).1 hB
      have : c = c' := by exact_mod_cast hcc
      omega
  · intro v
    rw [hperm.mem_iff, List.mem_append, hmemA, hmemB]
    constructor
    · rintro (⟨c, rfl, h⟩ | ⟨c, rfl, h⟩)
      · exact ⟨c, rfl, Or.inl h⟩
      · exact ⟨c, rfl, Or.inr h⟩
    · rintro ⟨c, rfl, h | h⟩
      · exact Or.inl ⟨c, rfl, h⟩
      · exact Or.inr ⟨c, rfl, h⟩

/-- The dispatcher runs the shared body under one of the three schedule clauses. -/
lemma parallel_prime_generator_eq (rt : Runtime) (primes0 : Nat → Int)
    (num_threads M chunk : Int) (schedule : List Char) :
    ∃ sch : Schedule, parallel_prime_generator rt primes0 num_threads M chunk schedule
      = generator rt primes0 num_threads M sch := by
  unfold parallel_prime_generator
  split_ifs
  · exact ⟨Schedule.guided, rfl⟩
  · exact ⟨Schedule.dynamic chunk, rfl⟩
  · exact ⟨Schedule.static chunk, rfl⟩

lemma sequential_fair : sequential.Fair := fun _ _ l => List.Perm.refl l

lemma reversed_fair : reversed.Fair := fun _ _ l => List.reverse_perm l

/-! ## Claims about the result of a trial -/

/-- C1 (evaluation at the failing input). For `M = 9` the static policy run by a single
worker leaves `2, 3, 5, 7, 9` in `primes[0 .. count-1]`: `root` is 3, the seed loop
`while (num < root)` does not test 3, so the only divisor of the parallel phase is 2 and
the composite 9 is stored. The primes up to 9 are `2, 3, 5, 7`. -/
theorem result_at_nine :
    (parallel_prime_generator sequential zeroed 1 9 5 ['s', 't', 'a', 't', 'i', 'c']).result
      = [2, 3, 5, 7, 9] ∧
    (parallel_prime_generator sequential zeroed 1 9 5 ['d', 'y', 'n', 'a', 'm', 'i', 'c']).result
      = [2, 3, 5, 7, 9] ∧
    (parallel_prime_generator sequential zeroed 1 9 5 ['g', 'u', 'i', 'd', 'e', 'd']).result
      = [2, 3, 5, 7, 9] ∧
    primes_upto 9 = [2, 3, 5, 7] := by
  decide

/-- C2. For every bound `M ≥ 2`, every schedule tag and every order in which a fair
runtime executes the iterations of the parallel loop, no value occurs twice in
`primes[0 .. count-1]` and every prime `q ≤ M` occurs there exactly once. -/
theorem every_prime_stored_once (rt : Runtime) (hrt : rt.Fair) (primes0 : Nat → Int)
    (num_threads M chunk : Int) (schedule : List Char) (_hM : 2 ≤ M) :
    (parallel_prime_generator rt primes0 num_threads M chunk schedule).result.Nodup ∧
    ∀ q : Nat, q.Prime → (q : Int) ≤ M →
      List.count (q : Int)
        (parallel_prime_generator rt primes0 num_threads M chunk schedule).result = 1 := by
  obtain ⟨sch, hsch⟩ := parallel_prime_generator_eq rt primes0 num_threads M chunk schedule
  rw [hsch]
  obtain ⟨n, hodd, h3, -, -, hnodup, hmem⟩ := generator_spec rt hrt primes0 num_threads M sch
  refine ⟨hnodup, ?_⟩
  intro q hq hqM
  apply List.count_eq_one_of_mem hnodup
  rw [hmem]
  refine ⟨q, rfl, ?_⟩
  by_cases hlt : q < n
  · exact Or.inl ⟨hlt, hq⟩
  · right
    have hq2 : q ≠ 2 := by omega
    refine ⟨by omega, ?_, hqM, ?_⟩
    · rcases hq.eq_two_or_odd with h | h
      · exact absurd h hq2
      · exact h
    · intro q' hq' hd
      obtain ⟨hlt', hp'⟩ := (mem_primes_below n q').1 hq'
      have := (Nat.prime_dvd_prime_iff_eq hp' hq).1 hd
      omega

/-- Every prime up to 30 is stored exactly once when the iterations of the parallel
loop run in reverse program order. -/
theorem every_prime_stored_once_witness :
    reversed.Fair ∧ (2 : Int) ≤ 30 ∧
    ((parallel_prime_generator reversed zeroed 4 30 5 ['s', 't', 'a', 't', 'i', 'c']).result.Nodup ∧
    ∀ q : Nat, q.Prime → (q : Int) ≤ 30 →
      List.count (q : Int)
        (parallel_prime_generator reversed zeroed 4 30 5 ['s', 't', 'a', 't', 'i', 'c']).result
          = 1) :=
  ⟨reversed_fair, by decide,
    every_prime_stored_once reversed reversed_fair zeroed 4 30 5 ['s', 't', 'a', 't', 'i', 'c']
      (by decide)⟩

/-- C3 (evaluation). The result is `[2]` for `M = 2`, where the parallel loop has no
iteration, and `[2, 3]` for `M = 3`; for `M = 30` it contains the composite 25 next to
the ten primes up to 30, because `root` is 5 and the seed loop stops before testing 5. -/
theorem result_at_two_three_thirty :
    loop_iterations (static_generator sequential zeroed 1 2 5).my_num 2 = [] ∧
    (static_generator sequential zeroed 1 2 5).result = [2] ∧
    (static_generator sequential zeroed 1 3 5).result = [2, 3] ∧
    (static_generator sequential zeroed 1 30 5).result
      = [2, 3, 5, 7, 11, 13, 17, 19, 23, 25, 29] ∧
    primes_upto 30 = [2, 3, 5, 7, 11, 13, 17, 19, 23, 29] := by
  decide

/-- C4 (evaluation at the failing input). For `M = 9` the counter `count` ends at 5,
while there are 4 primes up to 9. -/
theorem count_at_nine :
    (static_generator sequential zeroed 1 9 5).count = 5 ∧ Nat.primeCounting 9 = 4 := by
  decide

/-- C5 (evaluation at the failing input). For `M = 9` the prime 3 has `3 * 3 ≤ 9` but is
not among the first `n_of_small_primes` entries when the parallel loop starts: these
are `[2]`, and the composite candidate 9 passes the test against them. -/
theorem seed_at_nine :
    Nat.Prime 3 ∧ 3 * 3 ≤ 9 ∧
    (static_generator sequential zeroed 1 9 5).n_of_small_primes = 1 ∧
    entries (seed_phase zeroed 9).primes (seed_phase zeroed 9).count = [2] ∧
    (3 : Int) ∉ entries (seed_phase zeroed 9).primes (seed_phase zeroed 9).count ∧
    (9 : Int) ∈ loop_iterations (static_generator sequential zeroed 1 9 5).my_num 9 ∧
    is_prime 9 (seed_phase zeroed 9).primes
      (static_generator sequential zeroed 1 9 5).n_of_small_primes = 1 := by
  decide

/-- C8 (evaluation at the failing input). For `M = 2` the array is declared with
length `p = 1`, and the trial stores to the subscripts 0 (the prime 2) and 1 (the
sentinel): the sentinel store is outside the array. -/
theorem writes_at_two :
    (static_generator sequential zeroed 1 2 5).p = 1 ∧
    (static_generator sequential zeroed 1 2 5).count = 1 ∧
    (static_generator sequential zeroed 1 2 5).writes = [1, 0] ∧
    ¬ (∀ i, i ∈ (static_generator sequential zeroed 1 2 5).writes →
        (i : Int) < (static_generator sequential zeroed 1 2 5).p) := by
  decide

/-- C9. The dispatcher runs the loop under `schedule(guided)` exactly when the first
character of the tag is `g`, under `schedule(dynamic, chunk)` exactly when it is `d`,
and under `schedule(static, chunk)` exactly when it is neither; it calls the generator
of that name with the thread count, bound and chunk size it was given. -/
theorem dispatcher_selects_policy (rt : Runtime) (primes0 : Nat → Int)
    (num_threads M chunk : Int) (schedule : List Char) :
    ((parallel_prime_generator rt primes0 num_threads M chunk schedule).schedule
        = Schedule.guided ↔ first_char schedule = 'g') ∧
    ((parallel_prime_generator rt primes0 num_threads M chunk schedule).schedule
        = Schedule.dynamic chunk ↔ first_char schedule = 'd') ∧
    ((parallel_prime_generator rt primes0 num_threads M chunk schedule).schedule
        = Schedule.static chunk ↔ (first_char schedule ≠ 'g' ∧ first_char schedule ≠ 'd')) ∧
    parallel_prime_generator rt primes0 num_threads M chunk schedule
      = (if first_char schedule = 'g' then guided_generator rt primes0 num_threads M
         else if first_char schedule = 'd' then
           dynamic_generator rt primes0 num_threads M chunk
         else static_generator rt primes0 num_threads M chunk) ∧
    (parallel_prime_generator rt primes0 num_threads M chunk schedule).threads
      = num_threads := by
  unfold parallel_prime_generator
  by_cases hg : first_char schedule = 'g'
  · simp [hg, guided_generator, generator]
  · by_cases hd : first_char schedule = 'd'
    · simp [hd, dynamic_generator, generator]
    · simp [hg, hd, static_generator, generator]

/-- C10. For every bound `M ≥ 2`, two trials that differ in thread count, schedule tag,
chunk size, the order in which a fair runtime executes the parallel iterations, or the
initial content of the array, leave the same set of values in `primes[0 .. count-1]`
and the same `count`. -/
theorem result_independent_of_run (rt rt' : Runtime) (hrt : rt.Fair) (hrt' : rt'.Fair)
    (primes0 primes0' : Nat → Int) (num_threads num_threads' M chunk chunk' : Int)
    (schedule schedule' : List Char) (_hM : 2 ≤ M) :
    (∀ v : Int,
      v ∈ (parallel_prime_generator rt primes0 num_threads M chunk schedule).result ↔
      v ∈ (parallel_prime_generator rt' primes0' num_threads' M chunk' schedule').result) ∧
    (parallel_prime_generator rt primes0 num_threads M chunk schedule).count
      = (parallel_prime_generator rt' primes0' num_threads' M chunk' schedule').count := by
  obtain ⟨sch, hsch⟩ := parallel_prime_generator_eq rt primes0 num_threads M chunk schedule
  obtain ⟨sch', hsch'⟩ :=
    parallel_prime_generator_eq rt' primes0' num_threads' M chunk' schedule'
  rw [hsch, hsch']
  obtain ⟨n, hodd, h3, hr, hn, hperm⟩ := generator_result_perm rt hrt primes0 num_threads M sch
  obtain ⟨n', hodd', h3', hr', hn', hperm'⟩ :=
    generator_result_perm rt' hrt' primes0' num_threads' M sch'
  have hnn : n' = n := by omega
  rw [hnn] at hperm'
  have hp := hperm.trans hperm'.symm
  refine ⟨fun v => hp.mem_iff, ?_⟩
  rw [generator_count, generator_count]
  exact hp.length_eq

/-- Two trials for `M = 30`: one worker under the static policy in program order, and
eight workers under the guided policy in reverse order. -/
theorem result_independent_of_run_witness :
    sequential.Fair ∧ reversed.Fair ∧ (2 : Int) ≤ 30 ∧
    ((∀ v : Int,
      v ∈ (parallel_prime_generator sequential zeroed 1 30 5
            ['s', 't', 'a', 't', 'i', 'c']).result ↔
      v ∈ (parallel_prime_generator reversed (fun _ => 7) 8 30 100
            ['g', 'u', 'i', 'd', 'e', 'd']).result) ∧
    (parallel_prime_generator sequential zeroed 1 30 5 ['s', 't', 'a', 't', 'i', 'c']).count
      = (parallel_prime_generator reversed (fun _ => 7) 8 30 100
          ['g', 'u', 'i', 'd', 'e', 'd']).count) :=
  ⟨sequential_fair, reversed_fair, by decide,
    result_independent_of_run sequential reversed sequential_fair reversed_fair zeroed
      (fun _ => 7) 1 8 30 5 100 ['s', 't', 'a', 't', 'i', 'c'] ['g', 'u', 'i', 'd', 'e', 'd']
      (by decide)⟩

/-- The test of 9 against the divisors `2, 3` and of 7 against the same divisors. -/
theorem is_prime_spec_witness :
    (∀ i, i < 2 → (fun j : Nat => if j = 0 then (2 : Int) else 3) i ≠ 0) ∧
    ((is_prime 9 (fun j : Nat => if j = 0 then (2 : Int) else 3) 2 = 0 ↔
      ∃ i, i < 2 ∧ Int.tmod 9 ((fun j : Nat => if j = 0 then (2 : Int) else 3) i) = 0) ∧
    ((¬ ∃ i, i < 2 ∧ Int.tmod 9 ((fun j : Nat => if j = 0 then (2 : Int) else 3) i) = 0) →
      is_prime 9 (fun j : Nat => if j = 0 then (2 : Int) else 3) 2 = 1) ∧
    (∀ primes' : Nat → Int,
      (∀ i, i < 2 → primes' i = (fun j : Nat => if j = 0 then (2 : Int) else 3) i) →
      is_prime 9 primes' 2 = is_prime 9 (fun j : Nat => if j = 0 then (2 : Int) else 3) 2) ∧
    ((2 : Nat) = 0 → is_prime 9 (fun j : Nat => if j = 0 then (2 : Int) else 3) 2 = 1)) :=
  ⟨by decide, is_prime_spec 9 (fun j : Nat => if j = 0 then (2 : Int) else 3) 2 (by decide)⟩

/-! ## The sentinel and the seed prefix -/

/-- The parallel loop, whatever the order of its iterations, keeps the entries below
`n_of_small_primes`, does not decrease `count`, and has stored to the subscripts
`0 .. count-1`. -/
lemma parallel_phase_spec (rt : Runtime) (primes0 : Nat → Int) (num_threads M : Int)
    (sch : Schedule) :
    (∀ i, i < (seed_phase primes0 M).count →
      (parallel_phase rt primes0 num_threads M sch).primes i
        = (seed_phase primes0 M).primes i) ∧
    (seed_phase primes0 M).count ≤ (parallel_phase rt primes0 num_threads M sch).count ∧
    (parallel_phase rt primes0 num_threads M sch).writes
      = (List.range (parallel_phase rt primes0 num_threads M sch).count).reverse := by
  obtain ⟨n, -, -, -, -, -, -, hw⟩ := seed_phase_spec primes0 M
  obtain ⟨-, h2, h3, h4⟩ := parallel_fold_spec (seed_phase primes0 M).count
    (rt num_threads sch (loop_iterations (seed_phase primes0 M).num M))
    (seed_phase primes0 M) (le_refl _) hw
  exact ⟨h2, h3, h4⟩

/-- The seed loop leaves 2 in `primes[0]` and `count ≥ 1`. -/
lemma seed_phase_head (primes0 : Nat → Int) (M : Int) :
    1 ≤ (seed_phase primes0 M).count ∧ (seed_phase primes0 M).primes 0 = 2 := by
  obtain ⟨n, -, hodd, h3, hr, hn, hent, -⟩ := seed_phase_spec primes0 M
  rw [primes_below_exit (int_sqrt M).toNat n hodd h3 hr hn] at hent
  have hlen := entries_length (seed_phase primes0 M).primes (seed_phase primes0 M).count
  rw [hent] at hlen
  have hpos : 1 ≤ (seed_phase primes0 M).count := by
    rw [← hlen]
    simp
  refine ⟨hpos, ?_⟩
  obtain ⟨k, hk⟩ : ∃ k, (seed_phase primes0 M).count = k + 1 := ⟨_, (Nat.sub_add_cancel hpos).symm⟩
  rw [hk] at hent
  unfold entries at hent
  rw [List.range_succ_eq_map] at hent
  simp only [List.map_cons] at hent
  exact_mod_cast (List.cons.inj hent).1

/-- The fields of a finished trial in terms of the state after the parallel loop. -/
lemma generator_fields (rt : Runtime) (primes0 : Nat → Int) (num_threads M : Int)
    (sch : Schedule) :
    (generator rt primes0 num_threads M sch).count
      = (parallel_phase rt primes0 num_threads M sch).count ∧
    (generator rt primes0 num_threads M sch).n_of_small_primes
      = (seed_phase primes0 M).count ∧
    (generator rt primes0 num_threads M sch).writes
      = (List.range ((generator rt primes0 num_threads M sch).count + 1)).reverse ∧
    (generator rt primes0 num_threads M sch).primes
        (generator rt primes0 num_threads M sch).count = 0 ∧
    (∀ i, i < (generator rt primes0 num_threads M sch).count →
      (generator rt primes0 num_threads M sch).primes i
        = (parallel_phase rt primes0 num_threads M sch).primes i) := by
  obtain ⟨-, -, hw⟩ := parallel_phase_spec rt primes0 num_threads M sch
  refine ⟨rfl, rfl, ?_, ?_, ?_⟩
  · show (parallel_phase rt primes0 num_threads M sch).count
        :: (parallel_phase rt primes0 num_threads M sch).writes = _
    rw [hw, List.range_succ, List.reverse_append]
    rfl
  · show (if (parallel_phase rt primes0 num_threads M sch).count
        = (parallel_phase rt primes0 num_threads M sch).count then (0 : Int)
      else (parallel_phase rt primes0 num_threads M sch).primes _) = 0
    rw [if_pos rfl]
  · intro i hi
    show (if i = (parallel_phase rt primes0 num_threads M sch).count then (0 : Int)
      else (parallel_phase rt primes0 num_threads M sch).primes i) = _
    rw [if_neg]
    exact Nat.ne_of_lt hi

/-- Every value stored by a trial under a fair runtime is at least 2. -/
lemma result_two_le (rt : Runtime) (hrt : rt.Fair) (primes0 : Nat → Int)
    (num_threads M : Int) (sch : Schedule) (v : Int)
    (hv : v ∈ (generator rt primes0 num_threads M sch).result) : 2 ≤ v := by
  obtain ⟨n, -, h3, -, -, -, hmem⟩ := generator_spec rt hrt primes0 num_threads M sch
  obtain ⟨c, rfl, h | h⟩ := (hmem v).1 hv
  · exact_mod_cast h.2.two_le
  · have : 2 ≤ c := by omega
    exact_mod_cast this

/-- C11. For every bound `M ≥ 2`, after a trial the entry `primes[count]` is 0 and every
entry below `count` is non-zero, so that among the subscripts `0 .. count` the entry is 0
exactly at `count`: the first 0 marks the end of the stored sequence. -/
theorem sentinel_marks_end (rt : Runtime) (hrt : rt.Fair) (primes0 : Nat → Int)
    (num_threads M chunk : Int) (schedule : List Char) (_hM : 2 ≤ M) :
    (parallel_prime_generator rt primes0 num_threads M chunk schedule).primes
        (parallel_prime_generator rt primes0 num_threads M chunk schedule).count = 0 ∧
    (∀ i, i < (parallel_prime_generator rt primes0 num_threads M chunk schedule).count →
      (parallel_prime_generator rt primes0 num_threads M chunk schedule).primes i ≠ 0) ∧
    (∀ i, i ≤ (parallel_prime_generator rt primes0 num_threads M chunk schedule).count →
      ((parallel_prime_generator rt primes0 num_threads M chunk schedule).primes i = 0 ↔
        i = (parallel_prime_generator rt primes0 num_threads M chunk schedule).count)) := by
  obtain ⟨sch, hsch⟩ := parallel_prime_generator_eq rt primes0 num_threads M chunk schedule
  rw [hsch]
  obtain ⟨-, -, -, hzero, -⟩ := generator_fields rt primes0 num_threads M sch
  have hnz : ∀ i, i < (generator rt primes0 num_threads M sch).count →
      (generator rt primes0 num_threads M sch).primes i ≠ 0 := by
    intro i hi h0
    have hmem : (generator rt primes0 num_threads M sch).primes i
        ∈ (generator rt primes0 num_threads M sch).result :=
      (mem_entries _ _ _).2 ⟨i, hi, rfl⟩
    have := result_two_le rt hrt primes0 num_threads M sch _ hmem
    omega
  refine ⟨hzero, hnz, ?_⟩
  intro i hi
  constructor
  · intro h0
    by_contra hne
    exact hnz i (by omega) h0
  · rintro rfl
    exact hzero

/-- The sentinel after a trial with `M = 30` run in reverse order. -/
theorem sentinel_marks_end_witness :
    reversed.Fair ∧ (2 : Int) ≤ 30 ∧
    ((parallel_prime_generator reversed (fun _ => 7) 2 30 5 ['d']).primes
        (parallel_prime_generator reversed (fun _ => 7) 2 30 5 ['d']).count = 0 ∧
    (∀ i, i < (parallel_prime_generator reversed (fun _ => 7) 2 30 5 ['d']).count →
      (parallel_prime_generator reversed (fun _ => 7) 2 30 5 ['d']).primes i ≠ 0) ∧
    (∀ i, i ≤ (parallel_prime_generator reversed (fun _ => 7) 2 30 5 ['d']).count →
      ((parallel_prime_generator reversed (fun _ => 7) 2 30 5 ['d']).primes i = 0 ↔
        i = (parallel_prime_generator reversed (fun _ => 7) 2 30 5 ['d']).count))) :=
  ⟨reversed_fair, by decide,
    sentinel_marks_end reversed reversed_fair (fun _ => 7) 2 30 5 ['d'] (by decide)⟩

/-- C15. For every bound `M ≥ 2` the parallel phase leaves the seed prefix unchanged:
after any sequence of parallel iterations, and in the finished trial, every entry
`primes[i]` with `i < n_of_small_primes` has the value it had when the seed loop exited,
`primes[0]` is 2 before and after, and every store of the parallel loop goes to a
subscript `≥ n_of_small_primes`. -/
theorem seed_prefix_unchanged (rt : Runtime) (primes0 : Nat → Int)
    (num_threads M chunk : Int) (_hM : 2 ≤ M) :
    (∀ (l : List Int) (i : Nat), i < (seed_phase primes0 M).count →
      (l.foldl (parallel_iteration (seed_phase primes0 M).count) (seed_phase primes0 M)).primes i
        = (seed_phase primes0 M).primes i) ∧
    (∀ i, i < (static_generator rt primes0 num_threads M chunk).n_of_small_primes →
      (static_generator rt primes0 num_threads M chunk).primes i
        = (seed_phase primes0 M).primes i) ∧
    (seed_phase primes0 M).primes 0 = 2 ∧
    (static_generator rt primes0 num_threads M chunk).primes 0 = 2 ∧
    (∃ l : List Nat,
      (parallel_phase rt primes0 num_threads M (Schedule.static chunk)).writes
        = l ++ (seed_phase primes0 M).writes ∧
      ∀ i, i ∈ l → (static_generator rt primes0 num_threads M chunk).n_of_small_primes ≤ i) := by
  obtain ⟨n, -, -, -, -, -, -, hw⟩ := seed_phase_spec primes0 M
  obtain ⟨hc, hn, -, -, hlt⟩ :=
    generator_fields rt primes0 num_threads M (Schedule.static chunk)
  obtain ⟨hpre, hle, hw'⟩ := parallel_phase_spec rt primes0 num_threads M (Schedule.static chunk)
  obtain ⟨hpos, hhead⟩ := seed_phase_head primes0 M
  have hfinal : ∀ i, i < (seed_phase primes0 M).count →
      (static_generator rt primes0 num_threads M chunk).primes i
        = (seed_phase primes0 M).primes i := by
    intro i hi
    show (generator rt primes0 num_threads M (Schedule.static chunk)).primes i = _
    rw [hlt i (by omega), hpre i hi]
  refine ⟨?_, hfinal, hhead, ?_, ?_⟩
  · intro l i hi
    exact (parallel_fold_spec (seed_phase primes0 M).count l (seed_phase primes0 M)
      (le_refl _) hw).2.1 i hi
  · rw [hfinal 0 (by omega), hhead]
  · obtain ⟨d, hd⟩ : ∃ d, (parallel_phase rt primes0 num_threads M (Schedule.static chunk)).count
        = (seed_phase primes0 M).count + d := ⟨_, (Nat.add_sub_cancel' hle).symm⟩
    refine ⟨((List.range d).map (fun j => (seed_phase primes0 M).count + j)).reverse, ?_, ?_⟩
    · rw [hw', hw, hd, List.range_add, List.reverse_append]
    · intro i hi
      rw [List.mem_reverse, List.mem_map] at hi
      obtain ⟨j, -, rfl⟩ := hi
      show (seed_phase primes0 M).count ≤ _
      omega

/-- The seed prefix `[2, 3]` of a trial with `M = 30` run in reverse order. -/
theorem seed_prefix_unchanged_witness :
    (2 : Int) ≤ 30 ∧
    ((∀ (l : List Int) (i : Nat), i < (seed_phase zeroed 30).count →
      (l.foldl (parallel_iteration (seed_phase zeroed 30).count) (seed_phase zeroed 30)).primes i
        = (seed_phase zeroed 30).primes i) ∧
    (∀ i, i < (static_generator reversed zeroed 4 30 5).n_of_small_primes →
      (static_generator reversed zeroed 4 30 5).primes i = (seed_phase zeroed 30).primes i) ∧
    (seed_phase zeroed 30).primes 0 = 2 ∧
    (static_generator reversed zeroed 4 30 5).primes 0 = 2 ∧
    (∃ l : List Nat,
      (parallel_phase reversed zeroed 4 30 (Schedule.static 5)).writes
        = l ++ (seed_phase zeroed 30).writes ∧
      ∀ i, i ∈ l → (static_generator reversed zeroed 4 30 5).n_of_small_primes ≤ i)) :=
  ⟨by decide, seed_prefix_unchanged reversed zeroed 4 30 5 (by decide)⟩

/-! ## Order of the entries -/

lemma loop_iterations_sorted (my_num M : Int) :
    (loop_iterations my_num M).Pairwise (fun a b => a < b) := by
  unfold loop_iterations
  apply List.Pairwise.map _ _ (List.pairwise_lt_range _)
  intro a b hab
  show my_num + 2 * (a : Int) < my_num + 2 * (b : Int)
  omega

/-- C16. For every bound `M ≥ 2`, when the runtime executes the iterations of a
one-thread loop in program order (increasing `num`), the entries `primes[0 .. count-1]`
of a trial run with one thread are strictly increasing. -/
theorem single_worker_increasing (rt : Runtime) (hone : ∀ sch l, rt 1 sch l = l)
    (primes0 : Nat → Int) (M chunk : Int) (schedule : List Char) (_hM : 2 ≤ M) :
    (parallel_prime_generator rt primes0 1 M chunk schedule).result.Pairwise
      (fun a b => a < b) := by
  obtain ⟨sch, hsch⟩ := parallel_prime_generator_eq rt primes0 1 M chunk schedule
  rw [hsch, generator_result, hone]
  obtain ⟨n, hnum, -, -, -, -, hent, -⟩ := seed_phase_spec primes0 M
  rw [hent, hnum, List.pairwise_append]
  refine ⟨?_, ?_, ?_⟩
  · exact List.Pairwise.map _ (fun a b hab => by exact_mod_cast hab) (primes_below_sorted n)
  · exact (loop_iterations_sorted _ M).filter _
  · intro a ha b hb
    obtain ⟨q, hq, rfl⟩ := List.mem_map.1 ha
    obtain ⟨c, rfl, hc, -⟩ := (mem_loop_iterations n M b).1 (List.mem_of_mem_filter hb)
    have := ((mem_primes_below n q).1 hq).1
    have hqc : q < c := by omega
    exact_mod_cast hqc

/-- The entries of the one-thread trial with `M = 30` are increasing. -/
theorem single_worker_increasing_witness :
    (∀ sch l, sequential 1 sch l = l) ∧ (2 : Int) ≤ 30 ∧
    (parallel_prime_generator sequential zeroed 1 30 5 ['g']).result.Pairwise
      (fun a b => a < b) :=
  ⟨fun _ _ => rfl, by decide,
    single_worker_increasing sequential (fun _ _ => rfl) zeroed 30 5 ['g'] (by decide)⟩

/-! ## Candidates tested by the two loops -/

lemma seed_step_num (s : Vars) : (seed_step s).num = s.num + 2 := by
  unfold seed_step
  by_cases h : is_prime s.num s.primes s.count ≠ 0
  · simp only [h, if_true, ne_eq, not_false_eq_true]
    rfl
  · simp only [h, if_false]

/-- The seed loop started at `num = n` tests the numbers `n, n + 2, ...` below `root`,
in increasing order. -/
lemma seed_candidates_spec (r : Nat) : ∀ (fuel : Nat) (s : Vars) (n : Nat),
    s.num = (n : Int) → r ≤ n + 2 * fuel →
    (∀ c : Int, c ∈ seed_candidates (r : Int) fuel s ↔
      ∃ k : Nat, c = (k : Int) ∧ n ≤ k ∧ k % 2 = n % 2 ∧ k < r) ∧
    (seed_candidates (r : Int) fuel s).Pairwise (fun a b => a < b) := by
  intro fuel
  induction fuel with
  | zero =>
    intro s n _ hfuel
    refine ⟨?_, List.Pairwise.nil⟩
    intro c
    simp only [seed_candidates, List.not_mem_nil, false_iff]
    rintro ⟨k, -, h1, -, h2⟩
    omega
  | succ fuel ih =>
    intro s n hnum hfuel
    unfold seed_candidates
    by_cases hlt : s.num < (r : Int)
    · rw [if_pos hlt]
      have hnr : n < r := by
        rw [hnum] at hlt
        exact_mod_cast hlt
      have hnum' : (seed_step s).num = ((n + 2 : Nat) : Int) := by
        rw [seed_step_num, hnum]
        push_cast
        ring
      obtain ⟨hmem, hsorted⟩ := ih (seed_step s) (n + 2) hnum' (by omega)
      refine ⟨?_, ?_⟩
      · intro c
        rw [List.mem_cons, hmem, hnum]
        constructor
        · rintro (rfl | ⟨k, rfl, h1, h2, h3⟩)
          · exact ⟨n, rfl, le_refl n, rfl, hnr⟩
          · exact ⟨k, rfl, by omega, by omega, h3⟩
        · rintro ⟨k, rfl, h1, h2, h3⟩
          by_cases hk : k = n
          · left
            rw [hk]
          · right
            exact ⟨k, rfl, by omega, by omega, h3⟩
      · refine List.Pairwise.cons ?_ hsorted
        intro c hc
        obtain ⟨k, rfl, h1, -, -⟩ := (hmem c).1 hc
        rw [hnum]
        have : n < k := by omega
        exact_mod_cast this
    · rw [if_neg hlt]
      have hnr : r ≤ n := by
        rw [hnum] at hlt
        have : ¬ (n < r) := fun h => hlt (by exact_mod_cast h)
        omega
      refine ⟨?_, List.Pairwise.nil⟩
      intro c
      simp only [List.not_mem_nil, false_iff]
      rintro ⟨k, -, h1, -, h2⟩
      omega

/-- The candidates tested by the seed loop are the odd numbers from 3 below `root`. -/
lemma seed_tested_spec (primes0 : Nat → Int) (M : Int) :
    (∀ c : Int, c ∈ seed_tested primes0 M ↔ (3 ≤ c ∧ c % 2 = 1 ∧ c < int_sqrt M)) ∧
    (seed_tested primes0 M).Pairwise (fun a b => a < b) := by
  have hr := int_sqrt_eq_toNat M
  unfold seed_tested
  simp only []
  rw [hr]
  simp only [Int.toNat_ofNat]
  obtain ⟨hmem, hsorted⟩ := seed_candidates_spec (int_sqrt M).toNat (int_sqrt M).toNat
    (Vars.store { primes := primes0, count := 1, num := 3, writes := [] } 0 2) 3 rfl (by omega)
  refine ⟨?_, hsorted⟩
  intro c
  rw [hmem]
  constructor
  · rintro ⟨k, rfl, h1, h2, h3⟩
    refine ⟨by omega, by omega, by exact_mod_cast h3⟩
  · rintro ⟨h1, h2, h3⟩
    refine ⟨c.toNat, by omega, by omega, by omega, by omega⟩

/-- The integer square root of a non-negative bound is at most the bound. -/
lemma int_sqrt_le (M : Int) (hM : 0 ≤ M) : int_sqrt M ≤ M := by
  have h1 := sqrt_search_sq_le M.toNat M.toNat
  have h2 : sqrt_search M.toNat M.toNat ≤ M.toNat :=
    le_trans (Nat.le_mul_self _) h1
  unfold int_sqrt
  omega

/-- The seed loop adds 2 to `num` once for each candidate it tests. -/
lemma seed_loop_num (root : Int) : ∀ (fuel : Nat) (s : Vars),
    (seed_loop root fuel s).num = s.num + 2 * ((seed_candidates root fuel s).length : Int) := by
  intro fuel
  induction fuel with
  | zero =>
    intro s
    simp [seed_loop, seed_candidates]
  | succ fuel ih =>
    intro s
    unfold seed_loop seed_candidates
    by_cases hlt : s.num < root
    · rw [if_pos hlt, if_pos hlt, ih, seed_step_num, List.length_cons]
      push_cast
      ring
    · rw [if_neg hlt, if_neg hlt]
      simp

lemma seed_phase_num (primes0 : Nat → Int) (M : Int) :
    (seed_phase primes0 M).num = 3 + 2 * ((seed_tested primes0 M).length : Int) :=
  seed_loop_num (int_sqrt M) (int_sqrt M).toNat _

/-- C14. For every bound `M ≥ 2`, `my_num` is the least odd integer that is at least
`max(3, root)`, reached from 3 by one step of 2 for each candidate of the seed loop; the
seed loop tests exactly the odd integers from 3 below `root`, the parallel loop exactly
the odd integers from `my_num` through `M`; and the two loops together test every odd
integer of `[3, M]` exactly once and nothing else. -/
theorem candidates_tested_once (rt : Runtime) (hrt : rt.Fair) (primes0 : Nat → Int)
    (num_threads M chunk : Int) (hM : 2 ≤ M) :
    ((static_generator rt primes0 num_threads M chunk).my_num % 2 = 1 ∧
      max 3 (int_sqrt M) ≤ (static_generator rt primes0 num_threads M chunk).my_num ∧
      (∀ c : Int, c % 2 = 1 → max 3 (int_sqrt M) ≤ c →
        (static_generator rt primes0 num_threads M chunk).my_num ≤ c) ∧
      (static_generator rt primes0 num_threads M chunk).my_num
        = 3 + 2 * ((seed_tested primes0 M).length : Int)) ∧
    (∀ c : Int, c ∈ seed_tested primes0 M ↔ (3 ≤ c ∧ c % 2 = 1 ∧ c < int_sqrt M)) ∧
    (∀ c : Int, c ∈ parallel_tested rt primes0 num_threads M (Schedule.static chunk) ↔
      ((static_generator rt primes0 num_threads M chunk).my_num ≤ c ∧ c % 2 = 1 ∧ c ≤ M)) ∧
    (seed_tested primes0 M ++
      parallel_tested rt primes0 num_threads M (Schedule.static chunk)).Nodup ∧
    (∀ c : Int, c ∈ seed_tested primes0 M ++
        parallel_tested rt primes0 num_threads M (Schedule.static chunk) ↔
      (3 ≤ c ∧ c % 2 = 1 ∧ c ≤ M)) ∧
    (∀ c : Int, 3 ≤ c → c % 2 = 1 → c ≤ M →
      List.count c (seed_tested primes0 M ++
        parallel_tested rt primes0 num_threads M (Schedule.static chunk)) = 1) := by
  obtain ⟨n, hnum, hodd, h3, hr, hn, -, -⟩ := seed_phase_spec primes0 M
  obtain ⟨hseed, hseedsorted⟩ := seed_tested_spec primes0 M
  have hroot := int_sqrt_eq_toNat M
  have hle := int_sqrt_le M (by omega)
  have hmy : (static_generator rt primes0 num_threads M chunk).my_num = (n : Int) := hnum
  have hpar : ∀ c : Int,
      c ∈ parallel_tested rt primes0 num_threads M (Schedule.static chunk) ↔
        ((n : Int) ≤ c ∧ c % 2 = 1 ∧ c ≤ M) := by
    intro c
    unfold parallel_tested
    rw [(hrt num_threads (Schedule.static chunk) _).mem_iff, hnum, mem_loop_iterations]
    constructor
    · rintro ⟨k, rfl, h1, h2, h4⟩
      exact ⟨by exact_mod_cast h1, by omega, h4⟩
    · rintro ⟨h1, h2, h4⟩
      exact ⟨c.toNat, by omega, by omega, by omega, by omega⟩
  have hnodup : (seed_tested primes0 M ++
      parallel_tested rt primes0 num_threads M (Schedule.static chunk)).Nodup := by
    apply List.Nodup.append hseedsorted.nodup
    · unfold parallel_tested
      rw [(hrt num_threads (Schedule.static chunk) _).nodup_iff]
      exact loop_iterations_nodup _ M
    · intro c h1 h2
      have a1 := (hseed c).1 h1
      have a2 := (hpar c).1 h2
      omega
  have hall : ∀ c : Int, c ∈ seed_tested primes0 M ++
        parallel_tested rt primes0 num_threads M (Schedule.static chunk) ↔
      (3 ≤ c ∧ c % 2 = 1 ∧ c ≤ M) := by
    intro c
    rw [List.mem_append, hseed, hpar]
    constructor
    · rintro (⟨h1, h2, h4⟩ | ⟨h1, h2, h4⟩)
      · exact ⟨h1, h2, by omega⟩
      · exact ⟨by omega, h2, h4⟩
    · rintro ⟨h1, h2, h4⟩
      by_cases hc : c < int_sqrt M
      · exact Or.inl ⟨h1, h2, hc⟩
      · exact Or.inr ⟨by omega, h2, h4⟩
  refine ⟨⟨?_, ?_, ?_, seed_phase_num primes0 M⟩, hseed, ?_, hnodup, hall, ?_⟩
  · rw [hmy]
    omega
  · rw [hmy]
    omega
  · intro c h1 h2
    rw [hmy]
    omega
  · intro c
    rw [hmy]
    exact hpar c
  · intro c h1 h2 h4
    exact List.count_eq_one_of_mem hnodup ((hall c).2 ⟨h1, h2, h4⟩)

/-- The candidates of a trial with `M = 30` run in reverse order: 3 in the seed loop,
then 29, 27, ..., 5 in the parallel loop. -/
theorem candidates_tested_once_witness :
    reversed.Fair ∧ (2 : Int) ≤ 30 ∧
    (((static_generator reversed zeroed 4 30 5).my_num % 2 = 1 ∧
      max 3 (int_sqrt 30) ≤ (static_generator reversed zeroed 4 30 5).my_num ∧
      (∀ c : Int, c % 2 = 1 → max 3 (int_sqrt 30) ≤ c →
        (static_generator reversed zeroed 4 30 5).my_num ≤ c) ∧
      (static_generator reversed zeroed 4 30 5).my_num
        = 3 + 2 * ((seed_tested zeroed 30).length : Int)) ∧
    (∀ c : Int, c ∈ seed_tested zeroed 30 ↔ (3 ≤ c ∧ c % 2 = 1 ∧ c < int_sqrt 30)) ∧
    (∀ c : Int, c ∈ parallel_tested reversed zeroed 4 30 (Schedule.static 5) ↔
      ((static_generator reversed zeroed 4 30 5).my_num ≤ c ∧ c % 2 = 1 ∧ c ≤ 30)) ∧
    (seed_tested zeroed 30 ++ parallel_tested reversed zeroed 4 30 (Schedule.static 5)).Nodup ∧
    (∀ c : Int, c ∈ seed_tested zeroed 30 ++
        parallel_tested reversed zeroed 4 30 (Schedule.static 5) ↔
      (3 ≤ c ∧ c % 2 = 1 ∧ c ≤ 30)) ∧
    (∀ c : Int, 3 ≤ c → c % 2 = 1 → c ≤ 30 →
      List.count c (seed_tested zeroed 30 ++
        parallel_tested reversed zeroed 4 30 (Schedule.static 5)) = 1)) :=
  ⟨reversed_fair, by decide, candidates_tested_once reversed reversed_fair zeroed 4 30 5
    (by decide)⟩

/-! ## The result set and the primes up to `M` -/

lemma toNat_int_sqrt (M : Int) : (int_sqrt M).toNat = sqrt_search M.toNat M.toNat := by
  unfold int_sqrt
  simp

/-- Every prime `q ≤ M` is stored by a trial under a fair runtime. -/
lemma prime_mem_result (rt : Runtime) (hrt : rt.Fair) (primes0 : Nat → Int)
    (num_threads M : Int) (sch : Schedule) (q : Nat) (hq : q.Prime) (hqM : (q : Int) ≤ M) :
    (q : Int) ∈ (generator rt primes0 num_threads M sch).result := by
  obtain ⟨n, hodd, h3, -, -, -, hmem⟩ := generator_spec rt hrt primes0 num_threads M sch
  rw [hmem]
  refine ⟨q, rfl, ?_⟩
  by_cases hlt : q < n
  · exact Or.inl ⟨hlt, hq⟩
  · right
    have hq2 : q ≠ 2 := by omega
    refine ⟨by omega, ?_, hqM, ?_⟩
    · rcases hq.eq_two_or_odd with h | h
      · exact absurd h hq2
      · exact h
    · intro q' hq' hd
      obtain ⟨hlt', hp'⟩ := (mem_primes_below n q').1 hq'
      have := (Nat.prime_dvd_prime_iff_eq hp' hq).1 hd
      omega

/-- When `root` is not an odd prime, every value stored by a trial is a prime `≤ M`. -/
lemma result_prime_of_root (rt : Runtime) (hrt : rt.Fair) (primes0 : Nat → Int)
    (num_threads M : Int) (sch : Schedule) (hM : 2 ≤ M)
    (hroot : ¬ ((int_sqrt M).toNat % 2 = 1 ∧ (int_sqrt M).toNat.Prime))
    (v : Int) (hv : v ∈ (generator rt primes0 num_threads M sch).result) :
    ∃ q : Nat, q.Prime ∧ (q : Int) ≤ M ∧ v = (q : Int) := by
  obtain ⟨n, hodd, h3, hr, hn, -, hmem⟩ := generator_spec rt hrt primes0 num_threads M sch
  have hle := int_sqrt_le M (by omega)
  have hrM : (((int_sqrt M).toNat : Nat) : Int) ≤ M := by
    rw [← int_sqrt_eq_toNat]
    exact hle
  obtain ⟨c, rfl, h | h⟩ := (hmem v).1 hv
  · refine ⟨c, h.2, ?_, rfl⟩
    rcases hn with h3' | hn'
    · have := h.2.two_le
      have : c = 2 := by omega
      rw [this]
      exact_mod_cast hM
    · have : c ≤ (int_sqrt M).toNat := by omega
      have : (c : Int) ≤ (((int_sqrt M).toNat : Nat) : Int) := by exact_mod_cast this
      omega
  · obtain ⟨hnc, hcodd, hcM, hnd⟩ := h
    refine ⟨c, ?_, hcM, rfl⟩
    by_contra hnp
    have hqp : c.minFac.Prime := Nat.minFac_prime (by omega)
    have hqd : c.minFac ∣ c := Nat.minFac_dvd c
    have hsq : c.minFac ^ 2 ≤ c := Nat.minFac_sq_le_self (by omega) hnp
    have hqn : n ≤ c.minFac := by
      by_contra hlt
      exact hnd c.minFac ((mem_primes_below n _).2 ⟨by omega, hqp⟩) hqd
    have hcM' : c ≤ M.toNat := by omega
    have hqr : c.minFac ≤ (int_sqrt M).toNat := by
      rw [toNat_int_sqrt]
      apply le_sqrt_search
      · exact le_trans (Nat.minFac_le (by omega)) hcM'
      · calc c.minFac * c.minFac = c.minFac ^ 2 := (sq _).symm
          _ ≤ c := hsq
          _ ≤ M.toNat := hcM'
    have heq : (int_sqrt M).toNat = c.minFac := by omega
    apply hroot
    rw [heq]
    exact ⟨by omega, hqp⟩

/-- When `root` is an odd prime, the composite `root * root` is stored by a trial. -/
lemma root_sq_mem_result (rt : Runtime) (hrt : rt.Fair) (primes0 : Nat → Int)
    (num_threads M : Int) (sch : Schedule) (hM : 2 ≤ M)
    (hodd : (int_sqrt M).toNat % 2 = 1) (hp : (int_sqrt M).toNat.Prime) :
    (((int_sqrt M).toNat * (int_sqrt M).toNat : Nat) : Int)
        ∈ (generator rt primes0 num_threads M sch).result ∧
    ¬ ((int_sqrt M).toNat * (int_sqrt M).toNat).Prime := by
  obtain ⟨n, hnodd, h3, hr, hn, -, hmem⟩ := generator_spec rt hrt primes0 num_threads M sch
  have h2 := hp.two_le
  have hnr : n = (int_sqrt M).toNat := by omega
  have hsq : (int_sqrt M).toNat * (int_sqrt M).toNat ≤ M.toNat := by
    rw [toNat_int_sqrt]
    exact sqrt_search_sq_le _ _
  refine ⟨?_, ?_⟩
  · rw [hmem]
    refine ⟨_, rfl, Or.inr ⟨?_, ?_, ?_, ?_⟩⟩
    · rw [hnr]
      exact Nat.le_mul_self _
    · rw [Nat.mul_mod, hodd]
    · have : (((int_sqrt M).toNat * (int_sqrt M).toNat : Nat) : Int) ≤ ((M.toNat : Nat) : Int) := by
        exact_mod_cast hsq
      omega
    · intro q hq hd
      obtain ⟨hlt, hqp⟩ := (mem_primes_below n q).1 hq
      have hqr : q ∣ (int_sqrt M).toNat := by
        rcases (Nat.Prime.dvd_mul hqp).1 hd with h | h <;> exact h
      have := (Nat.prime_dvd_prime_iff_eq hqp hp).1 hqr
      omega
  · exact Nat.not_prime_mul (by omega) (by omega)

/-- C17. For every bound `M ≥ 2` the set of values in `primes[0 .. count-1]` after a
trial is the set of primes `≤ M` if and only if `root = (int)sqrt(M)` is not an odd
prime; when `root` is an odd prime, the composite `root * root` is among the values. -/
theorem result_is_primes_iff_root (rt : Runtime) (hrt : rt.Fair) (primes0 : Nat → Int)
    (num_threads M chunk : Int) (schedule : List Char) (hM : 2 ≤ M) :
    ((∀ v : Int,
        v ∈ (parallel_prime_generator rt primes0 num_threads M chunk schedule).result ↔
          ∃ q : Nat, q.Prime ∧ (q : Int) ≤ M ∧ v = (q : Int)) ↔
      ¬ ((int_sqrt M).toNat % 2 = 1 ∧ (int_sqrt M).toNat.Prime)) ∧
    (((int_sqrt M).toNat % 2 = 1 ∧ (int_sqrt M).toNat.Prime) →
      (((int_sqrt M).toNat * (int_sqrt M).toNat : Nat) : Int)
          ∈ (parallel_prime_generator rt primes0 num_threads M chunk schedule).result ∧
        ¬ ((int_sqrt M).toNat * (int_sqrt M).toNat).Prime) := by
  obtain ⟨sch, hsch⟩ := parallel_prime_generator_eq rt primes0 num_threads M chunk schedule
  rw [hsch]
  refine ⟨⟨?_, ?_⟩, ?_⟩
  · rintro hset ⟨hodd, hp⟩
    obtain ⟨hin, hnp⟩ := root_sq_mem_result rt hrt primes0 num_threads M sch hM hodd hp
    obtain ⟨q, hq, -, heq⟩ := (hset _).1 hin
    have : (int_sqrt M).toNat * (int_sqrt M).toNat = q := by exact_mod_cast heq
    exact hnp (this ▸ hq)
  · intro hroot v
    constructor
    · exact result_prime_of_root rt hrt primes0 num_threads M sch hM hroot v
    · rintro ⟨q, hq, hqM, rfl⟩
      exact prime_mem_result rt hrt primes0 num_threads M sch q hq hqM
  · rintro ⟨hodd, hp⟩
    exact root_sq_mem_result rt hrt primes0 num_threads M sch hM hodd hp

/-- The trial with `M = 25`, where `root = 5`. -/
theorem result_is_primes_iff_root_witness :
    sequential.Fair ∧ (2 : Int) ≤ 25 ∧
    (((∀ v : Int,
        v ∈ (parallel_prime_generator sequential zeroed 1 25 5 ['s']).result ↔
          ∃ q : Nat, q.Prime ∧ (q : Int) ≤ 25 ∧ v = (q : Int)) ↔
      ¬ ((int_sqrt 25).toNat % 2 = 1 ∧ (int_sqrt 25).toNat.Prime)) ∧
    (((int_sqrt 25).toNat % 2 = 1 ∧ (int_sqrt 25).toNat.Prime) →
      (((int_sqrt 25).toNat * (int_sqrt 25).toNat : Nat) : Int)
          ∈ (parallel_prime_generator sequential zeroed 1 25 5 ['s']).result ∧
        ¬ ((int_sqrt 25).toNat * (int_sqrt 25).toNat).Prime)) :=
  ⟨sequential_fair, by decide,
    result_is_primes_iff_root sequential sequential_fair zeroed 1 25 5 ['s'] (by decide)⟩

/-! ## Subscripts and the declared length of the array -/

/-- A list without repetition whose members are 2 or odd numbers of `[3, M]` other
than 9 and 15 has fewer than `M / 2` members, when `M ≥ 16`. -/
lemma length_lt_half (M : Int) (hM : 16 ≤ M) (L : List Int) (hnd : L.Nodup)
    (h : ∀ v, v ∈ L → v = 2 ∨ (v % 2 = 1 ∧ 3 ≤ v ∧ v ≤ M ∧ v ≠ 9 ∧ v ≠ 15)) :
    (L.length : Int) + 1 ≤ M / 2 := by
  have hinj : ∀ a, a ∈ L → ∀ b, b ∈ L →
      (if a = 2 then 0 else (a / 2).toNat) = (if b = 2 then 0 else (b / 2).toNat) → a = b := by
    intro a ha b hb hab
    rcases h a ha with rfl | ⟨a1, a2, a3, -, -⟩ <;> rcases h b hb with rfl | ⟨b1, b2, b3, -, -⟩
    · rfl
    · rw [if_pos rfl, if_neg (by omega)] at hab
      omega
    · rw [if_pos rfl, if_neg (by omega)] at hab
      omega
    · rw [if_neg (by omega), if_neg (by omega)] at hab
      omega
  have hnd' : (L.map (fun v : Int => if v = 2 then 0 else (v / 2).toNat)).Nodup :=
    List.Nodup.map_on hinj hnd
  have hcard : (L.map (fun v : Int => if v = 2 then 0 else (v / 2).toNat)).toFinset.card
      = L.length := by
    rw [List.toFinset_card_of_nodup hnd', List.length_map]
  have hsub : (L.map (fun v : Int => if v = 2 then 0 else (v / 2).toNat)).toFinset
      ⊆ ((Finset.range ((M + 1) / 2).toNat).erase 4).erase 7 := by
    intro k hk
    rw [List.mem_toFinset, List.mem_map] at hk
    obtain ⟨v, hv, rfl⟩ := hk
    simp only [Finset.mem_erase, Finset.mem_range]
    rcases h v hv with rfl | ⟨a1, a2, a3, a4, a5⟩
    · rw [if_pos rfl]
      omega
    · rw [if_neg (by omega)]
      omega
  have h4 : 4 ∈ Finset.range ((M + 1) / 2).toNat := by
    rw [Finset.mem_range]
    omega
  have h7 : 7 ∈ (Finset.range ((M + 1) / 2).toNat).erase 4 := by
    rw [Finset.mem_erase, Finset.mem_range]
    omega
  have hle := Finset.card_le_card hsub
  rw [hcard, Finset.card_erase_of_mem h7, Finset.card_erase_of_mem h4, Finset.card_range] at hle
  omega

/-- The integer square root of a bound `M ≥ 16` is at least 4. -/
lemma four_le_int_sqrt (M : Int) (hM : 16 ≤ M) : 4 ≤ (int_sqrt M).toNat := by
  rw [toNat_int_sqrt]
  exact le_sqrt_search _ _ 4 (by omega) (by omega)

/-- For `M ≥ 16` the final `count`, the subscript of the sentinel store, is below the
declared length `M / 2` of the array. -/
lemma count_lt_capacity (rt : Runtime) (hrt : rt.Fair) (primes0 : Nat → Int)
    (num_threads M : Int) (sch : Schedule) (hM : 16 ≤ M) :
    ((generator rt primes0 num_threads M sch).count : Int) + 1
      ≤ (generator rt primes0 num_threads M sch).p := by
  obtain ⟨n, hodd, h3, hr, hn, hnodup, hmem⟩ := generator_spec rt hrt primes0 num_threads M sch
  have h4 := four_le_int_sqrt M hM
  have hle := int_sqrt_le M (by omega)
  have hroot := int_sqrt_eq_toNat M
  have h3mem : 3 ∈ primes_below n := (mem_primes_below n 3).2 ⟨by omega, Nat.prime_three⟩
  have hp : (generator rt primes0 num_threads M sch).p = M / 2 := by
    show Int.tdiv M 2 = M / 2
    exact Int.tdiv_eq_ediv (by omega) (by decide)
  rw [hp, generator_count]
  apply length_lt_half M hM _ hnodup
  intro v hv
  obtain ⟨c, rfl, h | h⟩ := (hmem v).1 hv
  · obtain ⟨hlt, hcp⟩ := h
    rcases hcp.eq_two_or_odd with h2 | ho
    · left
      rw [h2]
      rfl
    · right
      have h2le := hcp.two_le
      have h9 : c ≠ 9 := by
        rintro rfl
        exact absurd hcp (by decide)
      have h15 : c ≠ 15 := by
        rintro rfl
        exact absurd hcp (by decide)
      refine ⟨by omega, by omega, by omega, by omega, by omega⟩
  · obtain ⟨hnc, hco, hcM, hnd⟩ := h
    right
    have h3c := hnd 3 h3mem
    refine ⟨by omega, by omega, hcM, by omega, by omega⟩

/-- Under a fair runtime the final `count` is that of the one-thread run in program
order on a zeroed array. -/
lemma count_eq_sequential (rt : Runtime) (hrt : rt.Fair) (primes0 : Nat → Int)
    (num_threads M : Int) (sch : Schedule) :
    (generator rt primes0 num_threads M sch).count
      = (generator sequential zeroed 1 M Schedule.guided).count := by
  obtain ⟨n, hodd, h3, hr, hn, hperm⟩ := generator_result_perm rt hrt primes0 num_threads M sch
  obtain ⟨n', hodd', h3', hr', hn', hperm'⟩ :=
    generator_result_perm sequential sequential_fair zeroed 1 M Schedule.guided
  have hnn : n' = n := by omega
  rw [hnn] at hperm'
  rw [generator_count, generator_count]
  exact (hperm.trans hperm'.symm).length_eq

/-- For `2 ≤ M ≤ 15` the final `count` is not below the declared length `M / 2`. -/
lemma capacity_le_count (rt : Runtime) (hrt : rt.Fair) (primes0 : Nat → Int)
    (num_threads M : Int) (sch : Schedule) (h2 : 2 ≤ M) (h15 : M ≤ 15) :
    (generator rt primes0 num_threads M sch).p
      ≤ ((generator rt primes0 num_threads M sch).count : Int) := by
  rw [count_eq_sequential rt hrt primes0 num_threads M sch]
  show Int.tdiv M 2 ≤ ((generator sequential zeroed 1 M Schedule.guided).count : Int)
  interval_cases M <;> decide

/-- C18. For every bound `M ≥ 2`, all subscripts stored to during a trial (those of the
appended values and that of the sentinel, `count`) are below the declared length
`p = M / 2` if and only if `M ≥ 16`; for `2 ≤ M ≤ 15` the sentinel store, at subscript
`count`, is at or beyond `p`. -/
theorem writes_in_bounds_iff (rt : Runtime) (hrt : rt.Fair) (primes0 : Nat → Int)
    (num_threads M chunk : Int) (schedule : List Char) (hM : 2 ≤ M) :
    ((∀ i, i ∈ (parallel_prime_generator rt primes0 num_threads M chunk schedule).writes →
        (i : Int) < (parallel_prime_generator rt primes0 num_threads M chunk schedule).p) ↔
      16 ≤ M) ∧
    (M ≤ 15 →
      (parallel_prime_generator rt primes0 num_threads M chunk schedule).writes.head?
        = some (parallel_prime_generator rt primes0 num_threads M chunk schedule).count ∧
      (parallel_prime_generator rt primes0 num_threads M chunk schedule).p
        ≤ ((parallel_prime_generator rt primes0 num_threads M chunk schedule).count : Int)) := by
  obtain ⟨sch, hsch⟩ := parallel_prime_generator_eq rt primes0 num_threads M chunk schedule
  rw [hsch]
  obtain ⟨-, -, hw, -, -⟩ := generator_fields rt primes0 num_threads M sch
  have hall : (∀ i, i ∈ (generator rt primes0 num_threads M sch).writes →
        (i : Int) < (generator rt primes0 num_threads M sch).p) ↔
      ((generator rt primes0 num_threads M sch).count : Int) + 1
        ≤ (generator rt primes0 num_threads M sch).p := by
    rw [hw]
    constructor
    · intro h
      have := h (generator rt primes0 num_threads M sch).count
        (by rw [List.mem_reverse, List.mem_range]; omega)
      omega
    · intro h i hi
      rw [List.mem_reverse, List.mem_range] at hi
      omega
  refine ⟨?_, ?_⟩
  · rw [hall]
    constructor
    · intro h
      by_contra h16
      have := capacity_le_count rt hrt primes0 num_threads M sch hM (by omega)
      omega
    · intro h16
      exact count_lt_capacity rt hrt primes0 num_threads M sch h16
  · intro h15
    refine ⟨?_, capacity_le_count rt hrt primes0 num_threads M sch hM h15⟩
    rw [hw, List.range_succ, List.reverse_append]
    rfl

/-- The trial with `M = 15`: declared length 7, sentinel stored at subscript 8. -/
theorem writes_in_bounds_iff_witness :
    sequential.Fair ∧ (2 : Int) ≤ 15 ∧
    (((∀ i, i ∈ (parallel_prime_generator sequential zeroed 1 15 5 ['s']).writes →
        (i : Int) < (parallel_prime_generator sequential zeroed 1 15 5 ['s']).p) ↔
      (16 : Int) ≤ 15) ∧
    ((15 : Int) ≤ 15 →
      (parallel_prime_generator sequential zeroed 1 15 5 ['s']).writes.head?
        = some (parallel_prime_generator sequential zeroed 1 15 5 ['s']).count ∧
      (parallel_prime_generator sequential zeroed 1 15 5 ['s']).p
        ≤ ((parallel_prime_generator sequential zeroed 1 15 5 ['s']).count : Int))) :=
  ⟨sequential_fair, by decide,
    writes_in_bounds_iff sequential sequential_fair zeroed 1 15 5 ['s'] (by decide)⟩

/-! ## The bounds used by the driver -/

/-- The integer square root from its defining inequalities. -/
lemma int_sqrt_of_bounds (m r : Nat) (h1 : r * r ≤ m) (h2 : m < (r + 1) * (r + 1)) :
    (int_sqrt (m : Int)).toNat = r := by
  rw [toNat_int_sqrt, Int.toNat_ofNat, sqrt_search_eq_sqrt]
  exact (Nat.eq_sqrt.2 ⟨h1, h2⟩).symm

/-- The square roots of the five bounds of `max_primes` are 6, 20, 63, 200 and 632, none
of which is an odd prime. -/
lemma driver_root_not_odd_prime (M : Int) (hM : M ∈ [(40 : Int), 400, 4000, 40000, 400000]) :
    ¬ ((int_sqrt M).toNat % 2 = 1 ∧ (int_sqrt M).toNat.Prime) := by
  simp only [List.mem_cons, List.mem_singleton, List.not_mem_nil, or_false] at hM
  rcases hM with rfl | rfl | rfl | rfl | rfl
  · have h := int_sqrt_of_bounds 40 6 (by norm_num) (by norm_num)
    rw [show ((40 : Nat) : Int) = 40 from rfl] at h
    rw [h]
    decide
  · have h := int_sqrt_of_bounds 400 20 (by norm_num) (by norm_num)
    rw [show ((400 : Nat) : Int) = 400 from rfl] at h
    rw [h]
    decide
  · have h := int_sqrt_of_bounds 4000 63 (by norm_num) (by norm_num)
    rw [show ((4000 : Nat) : Int) = 4000 from rfl] at h
    rw [h]
    rintro ⟨-, hp⟩
    exact absurd hp (by norm_num)
  · have h := int_sqrt_of_bounds 40000 200 (by norm_num) (by norm_num)
    rw [show ((40000 : Nat) : Int) = 40000 from rfl] at h
    rw [h]
    decide
  · have h := int_sqrt_of_bounds 400000 632 (by norm_num) (by norm_num)
    rw [show ((400000 : Nat) : Int) = 400000 from rfl] at h
    rw [h]
    rintro ⟨hodd, -⟩
    omega

/-- C19. For each bound of the driver (`M = 40, 400, 4000, 40000, 400000`), each of its
schedule tags, chunk sizes and thread counts, the set of values in
`primes[0 .. count-1]` after the trial is the set of primes `≤ M`, and
`count + 1 ≤ M / 2`. -/
theorem driver_trials_correct (rt : Runtime) (hrt : rt.Fair) (primes0 : Nat → Int)
    (num_threads M chunk : Int) (schedule : List Char)
    (hM : M ∈ [(40 : Int), 400, 4000, 40000, 400000])
    (_hchunk : chunk ∈ [(5 : Int), 10, 50, 100, 200])
    (_hschedule : schedule ∈ [['s', 't', 'a', 't', 'i', 'c'],
      ['d', 'y', 'n', 'a', 'm', 'i', 'c'], ['g', 'u', 'i', 'd', 'e', 'd']])
    (_hthreads : num_threads ∈ [(1 : Int), 2, 4, 8]) :
    (∀ v : Int,
      v ∈ (parallel_prime_generator rt primes0 num_threads M chunk schedule).result ↔
        ∃ q : Nat, q.Prime ∧ (q : Int) ≤ M ∧ v = (q : Int)) ∧
    ((parallel_prime_generator rt primes0 num_threads M chunk schedule).count : Int) + 1
      ≤ Int.tdiv M 2 := by
  have hroot := driver_root_not_odd_prime M hM
  have h40 : 40 ≤ M := by
    simp only [List.mem_cons, List.mem_singleton, List.not_mem_nil, or_false] at hM
    omega
  obtain ⟨sch, hsch⟩ := parallel_prime_generator_eq rt primes0 num_threads M chunk schedule
  rw [hsch]
  refine ⟨?_, count_lt_capacity rt hrt primes0 num_threads M sch (by omega)⟩
  intro v
  constructor
  · exact result_prime_of_root rt hrt primes0 num_threads M sch (by omega) hroot v
  · rintro ⟨q, hq, hqM, rfl⟩
    exact prime_mem_result rt hrt primes0 num_threads M sch q hq hqM

/-- The first trial of the driver: one thread, `M = 40`, chunk size 5, static tag. -/
theorem driver_trials_correct_witness :
    sequential.Fair ∧
    (40 : Int) ∈ [(40 : Int), 400, 4000, 40000, 400000] ∧
    (5 : Int) ∈ [(5 : Int), 10, 50, 100, 200] ∧
    ['s', 't', 'a', 't', 'i', 'c'] ∈ [['s', 't', 'a', 't', 'i', 'c'],
      ['d', 'y', 'n', 'a', 'm', 'i', 'c'], ['g', 'u', 'i', 'd', 'e', 'd']] ∧
    (1 : Int) ∈ [(1 : Int), 2, 4, 8] ∧
    ((∀ v : Int,
      v ∈ (parallel_prime_generator sequential zeroed 1 40 5
            ['s', 't', 'a', 't', 'i', 'c']).result ↔
        ∃ q : Nat, q.Prime ∧ (q : Int) ≤ 40 ∧ v = (q : Int)) ∧
    ((parallel_prime_generator sequential zeroed 1 40 5
        ['s', 't', 'a', 't', 'i', 'c']).count : Int) + 1 ≤ Int.tdiv 40 2) :=
  ⟨sequential_fair, by decide, by decide, by decide, by decide,
    driver_trials_correct sequential sequential_fair zeroed 1 40 5
      ['s', 't', 'a', 't', 'i', 'c'] (by decide) (by decide) (by decide) (by decide)⟩

/-! ## Calls with an invalid configuration -/

end PrimeGen
